import Mathlib

/-!
Verification of the core text-processing components of the obsidian-mcp
repository: the frontmatter codec (src/utils/frontmatter.ts), the markdown
structure extractor (src/utils/markdown.ts) and the link-analysis tools
(src/tools/links.ts).

The TypeScript sources are shallowly embedded: strings become `List Char`,
JavaScript regular expressions become hand-written scanners implementing the
same match semantics (documented at each definition), JavaScript numbers in
frontmatter values become `Int` for integers (exact for every value the
decimal tokens can denote) and a carried decimal token for non-integral
floats, and fallible operations (reading a note, enumerating the vault)
become `Option`/`Except` values.  Character classes follow the ASCII
fragment of the JavaScript classes (`\s`, `\w`, `a-z`), which is the
fragment the frontmatter grammar and the tests of the specification
exercise.
-/

/-- Strings of the embedded programs: JavaScript strings as lists of
characters. -/
abbrev Str : Type := List Char

/-- ASCII fragment of the JavaScript regex class `\s` (space, tab, newline,
carriage return, vertical tab, form feed). -/
def isWS (c : Char) : Bool :=
  c == ' ' || c == '\t' || c == '\n' || c == '\r' ||
    c == Char.ofNat 11 || c == Char.ofNat 12

/-- `[0-9]`. -/
def isDigitC (c : Char) : Bool := '0' ≤ c && c ≤ '9'

/-- `[a-zA-Z]`. -/
def isAlphaC (c : Char) : Bool := ('a' ≤ c && c ≤ 'z') || ('A' ≤ c && c ≤ 'Z')

/-- JavaScript regex class `\w` = `[A-Za-z0-9_]`. -/
def isWordC (c : Char) : Bool := isAlphaC c || isDigitC c || c == '_'

/-- Character class of inline tag bodies: letters, digits, underscore,
forward slash, hyphen. -/
def isTagC (c : Char) : Bool := isAlphaC c || isDigitC c || c == '_' || c == '/' || c == '-'

/-- ASCII lower-casing, the fragment of `String.prototype.toLowerCase`
needed by the codec (`true`/`false`/`null` detection, path normalisation). -/
def lowerC (c : Char) : Char :=
  if 'A' ≤ c && c ≤ 'Z' then Char.ofNat (c.toNat + 32) else c

/-- `toLowerCase` on a string. -/
def lowerStr (s : Str) : Str := s.map lowerC

/-- `String.prototype.trim`: strip `\s` from both ends. -/
def trimStr (s : Str) : Str :=
  ((s.dropWhile isWS).reverse.dropWhile isWS).reverse

/-- `split(/\r?\n/)`: split at every `\n`, additionally consuming one `\r`
directly before the `\n`.  A lone `\r` is kept. -/
def splitLinesCRLF : Str → List Str
  | [] => [[]]
  | '\r' :: '\n' :: rest => [] :: splitLinesCRLF rest
  | '\n' :: rest => [] :: splitLinesCRLF rest
  | c :: rest =>
    match splitLinesCRLF rest with
    | l :: ls => (c :: l) :: ls
    | [] => [[c]]

/-- `split(",")`. -/
def splitComma : Str → List Str
  | [] => [[]]
  | ',' :: rest => [] :: splitComma rest
  | c :: rest =>
    match splitComma rest with
    | l :: ls => (c :: l) :: ls
    | [] => [[c]]

/-- `split("/")`. -/
def splitSlash : Str → List Str
  | [] => [[]]
  | '/' :: rest => [] :: splitSlash rest
  | c :: rest =>
    match splitSlash rest with
    | l :: ls => (c :: l) :: ls
    | [] => [[c]]

/-- `join("\n")`. -/
def joinNL : List Str → Str
  | [] => []
  | [l] => l
  | l :: ls => l ++ '\n' :: joinNL ls

/-- Decimal rendering of a natural number (`String(n)` for a non-negative
integral JavaScript number). -/
def natToStr (n : Nat) : Str := (Nat.repr n).data

/-- `String(n)` for an integral JavaScript number. -/
def intToStr (i : Int) : Str :=
  if i < 0 then '-' :: natToStr i.natAbs else natToStr i.natAbs

/-- Value of a string of decimal digits. -/
def digitsToNat (ds : Str) : Nat := ds.foldl (fun a c => a * 10 + (c.toNat - 48)) 0

/-- `parseInt(v, 10)` on a string matching `-?\d+` (exact: JavaScript's
value is the rounding of this integer to a double; the embedding works with
the exact integer). -/
def parseIntDec (v : Str) : Int :=
  match v with
  | '-' :: ds => -(digitsToNat ds : Int)
  | ds => (digitsToNat ds : Int)

/-- Insert into a JavaScript `Set` of strings (membership by value, first
insertion order kept). -/
def listSetAdd (l : List Str) (x : Str) : List Str :=
  if l.contains x then l else l ++ [x]

/-!
## Frontmatter values

`frontmatter.ts` stores parsed YAML values as JavaScript values: strings,
numbers, booleans, `null` and arrays.  Numbers are split into the exact
integers (`parseInt` on `-?\d+` tokens) and non-integral floats
(`parseFloat` on `-?\d+\.\d+` tokens); a float is represented by its
decimal token.  For tokens that are canonical renderings (the form
`String(x)` produces, which is what `stringifyYamlValue` emits) this
representation is exact: `parseFloat` followed by `String` is the identity
on them, so modelling `parseFloat` as keeping the token is faithful on
every token the codec itself produces.
-/

/-- A frontmatter value. -/
inductive Yaml where
  /-- a JavaScript string -/
  | str (s : Str)
  /-- an integral JavaScript number (exact integer) -/
  | int (n : Int)
  /-- a non-integral JavaScript number, carried as its decimal token -/
  | float (tok : Str)
  /-- a JavaScript boolean -/
  | bool (b : Bool)
  /-- the JavaScript `null` -/
  | null
  /-- a JavaScript array -/
  | arr (items : List Yaml)
  deriving Repr

/-- JavaScript `===` / `Set` sameness on frontmatter values: scalars by
value, arrays by reference.  Every array reaching a `Set` in the codec is a
fresh object, so distinct `arr` values are never the same reference. -/
def jsSameValue : Yaml → Yaml → Bool
  | .str a, .str b => a == b
  | .int a, .int b => a == b
  | .float a, .float b => a == b
  | .bool a, .bool b => a == b
  | .null, .null => true
  | _, _ => false

/-- Equality test on scalar (non-array) values; `false` whenever an array
is involved.  Used to state the round-trip hypotheses. -/
def yamlScalarBeq : Yaml → Yaml → Bool
  | .str a, .str b => a == b
  | .int a, .int b => a == b
  | .float a, .float b => a == b
  | .bool a, .bool b => a == b
  | .null, .null => true
  | _, _ => false

/-- Is the value an array? -/
def Yaml.isArr : Yaml → Bool
  | .arr _ => true
  | _ => false

/-- Assignment `record[key] = value` on a JavaScript object modelled as an
insertion-ordered association list: an existing key keeps its position and
gets the new value, a new key is appended. -/
def recSet (r : List (Str × Yaml)) (k : Str) (v : Yaml) : List (Str × Yaml) :=
  if r.any (fun p => p.1 == k) then
    r.map (fun p => if p.1 == k then (k, v) else p)
  else r ++ [(k, v)]

/-- `record[key]` (the key occurs at most once in records produced by the
codec). -/
def recGet (r : List (Str × Yaml)) (k : Str) : Option Yaml :=
  (r.find? (fun p => p.1 == k)).map (·.2)

/-- The quoted-string test of `parseYamlValue`: starts and ends with a
double quote, or starts and ends with a single quote (a one-character
quote passes, as in the source). -/
def isQuotedShape (v : Str) : Bool :=
  (v.head? == some '"' && v.getLast? == some '"') ||
    (v.head? == some '\'' && v.getLast? == some '\'')

/-- The inline-array test of `parseYamlValue`:
`value.startsWith("[") && value.endsWith("]")`. -/
def isBracketShape (v : Str) : Bool :=
  v.head? == some '[' && v.getLast? == some ']'

/-- Shape test for the integer coercion, `/^-?\d+$/`. -/
def isIntShape (v : Str) : Bool :=
  match v with
  | '-' :: ds => !ds.isEmpty && ds.all isDigitC
  | ds => !ds.isEmpty && ds.all isDigitC

/-- Shape test for the float coercion, `/^-?\d+\.\d+$/`. -/
def isFloatShape (v : Str) : Bool :=
  let core := match v with | '-' :: ds => ds | ds => ds
  let ipart := core.takeWhile isDigitC
  !ipart.isEmpty &&
    (match core.drop ipart.length with
     | '.' :: fs => !fs.isEmpty && fs.all isDigitC
     | _ => false)

/-- Bound on the lengths of the pieces of `split(",")`, for the
termination of `parseYamlValue`. -/
theorem splitComma_length_le (s : Str) : ∀ p ∈ splitComma s, p.length ≤ s.length := by
  induction s with
  | nil => simp [splitComma]
  | cons c rest ih =>
    intro p hp
    rw [splitComma.eq_def] at hp
    split at hp
    · next heq => exact (List.cons_ne_nil c rest heq).elim
    · next heq =>
      obtain ⟨rfl, rfl⟩ := List.cons.inj heq
      rcases List.mem_cons.mp hp with rfl | hmem
      · simp
      · exact Nat.le_succ_of_le (ih p hmem)
    · next c2 rest2 hne heq =>
      obtain ⟨rfl, rfl⟩ := List.cons.inj heq
      split at hp
      · next l ls hsp =>
        rcases List.mem_cons.mp hp with rfl | hmem
        · have := ih l (by rw [hsp]; exact List.mem_cons_self l ls)
          simpa using Nat.succ_le_succ this
        · exact Nat.le_succ_of_le (ih p (by rw [hsp]; exact List.mem_cons_of_mem l hmem))
      · next hsp =>
        rcases List.mem_cons.mp hp with rfl | hmem
        · simp
        · simp at hmem

/-- `trim` does not lengthen a string. -/
theorem trimStr_length_le (s : Str) : (trimStr s).length ≤ s.length := by
  unfold trimStr
  calc ((s.dropWhile isWS).reverse.dropWhile isWS).reverse.length
      = ((s.dropWhile isWS).reverse.dropWhile isWS).length := List.length_reverse _
    _ ≤ (s.dropWhile isWS).reverse.length := (List.dropWhile_sublist _).length_le
    _ = (s.dropWhile isWS).length := List.length_reverse _
    _ ≤ s.length := (List.dropWhile_sublist _).length_le

/-- `parseYamlValue` (frontmatter.ts:282) with a structural fuel argument,
so that the definition reduces inside the kernel.  The public
`parseYamlValue` supplies sufficient fuel and `parseYamlValue_eq` below
recovers the fuel-free recursive equation of the source.  The coercion
order of the source is kept literally: quoted string, boolean, null,
integer, float, bracketed inline array (comma-split, each element
recursively coerced after `trim`), fallback raw string. -/
def parseYamlValueF : Nat → Str → Yaml
  | 0, value => .str value
  | fuel + 1, value =>
    if isQuotedShape value then
      .str (value.drop 1).dropLast
    else if lowerStr value = "true".data then .bool true
    else if lowerStr value = "false".data then .bool false
    else if lowerStr value = "null".data || value = "~".data then .null
    else if isIntShape value then .int (parseIntDec value)
    else if isFloatShape value then .float value
    else if isBracketShape value then
      let inner := (value.drop 1).dropLast
      if trimStr inner = [] then .arr []
      else .arr ((splitComma inner).map (fun item => parseYamlValueF fuel (trimStr item)))
    else .str value

/-- `parseYamlValue`: the fuel `value.length` is enough for every
recursive call (each bracket layer strips at least the two brackets). -/
def parseYamlValue (value : Str) : Yaml := parseYamlValueF value.length value

/-- On the empty token every test of `parseYamlValueF` fails and the raw
string is returned, independently of fuel. -/
theorem parseYamlValueF_nil (fuel : Nat) : parseYamlValueF fuel [] = .str [] := by
  cases fuel <;> rfl

/-- The fuel argument is irrelevant as soon as it dominates the length of
the token. -/
theorem parseYamlValueF_stable :
    ∀ (f1 : Nat) {f2 : Nat} (v : Str), v.length ≤ f1 → v.length ≤ f2 →
      parseYamlValueF f1 v = parseYamlValueF f2 v := by
  intro f1
  induction f1 with
  | zero =>
    intro f2 v h1 _
    have : v = [] := List.length_eq_zero.mp (Nat.le_zero.mp h1)
    subst this
    rw [parseYamlValueF_nil, parseYamlValueF_nil]
  | succ f1 ih =>
    intro f2 v h1 h2
    cases f2 with
    | zero =>
      have : v = [] := List.length_eq_zero.mp (Nat.le_zero.mp h2)
      subst this
      rw [parseYamlValueF_nil, parseYamlValueF_nil]
    | succ f2 =>
      show parseYamlValueF (f1 + 1) v = parseYamlValueF (f2 + 1) v
      simp only [parseYamlValueF]
      split
      · rfl
      · split
        · rfl
        · split
          · rfl
          · split
            · rfl
            · split
              · rfl
              · split
                · rfl
                · split
                  · next hbr =>
                    split
                    · rfl
                    · next =>
                      congr 1
                      apply List.map_congr_left
                      intro item hitem
                      have hne : v ≠ [] := by
                        intro hv
                        rw [hv] at hbr
                        simp [isBracketShape] at hbr
                      have hlen : (trimStr item).length ≤ f1 ∧ (trimStr item).length ≤ f2 := by
                        have e1 : (trimStr item).length ≤ item.length := trimStr_length_le _
                        have e2 : item.length ≤ ((v.drop 1).dropLast).length :=
                          splitComma_length_le _ _ hitem
                        have e3 : ((v.drop 1).dropLast).length ≤ v.length - 2 := by
                          simp only [List.length_dropLast, List.length_drop]
                          omega
                        have e4 : 0 < v.length := List.length_pos.mpr hne
                        omega
                      exact ih _ hlen.1 hlen.2
                  · rfl

/-- The source-shaped recursive equation of `parseYamlValue`
(frontmatter.ts:282-309): the embedding satisfies exactly the recursion the
TypeScript function performs. -/
theorem parseYamlValue_eq (value : Str) :
    parseYamlValue value =
      if isQuotedShape value then
        .str (value.drop 1).dropLast
      else if lowerStr value = "true".data then .bool true
      else if lowerStr value = "false".data then .bool false
      else if lowerStr value = "null".data || value = "~".data then .null
      else if isIntShape value then .int (parseIntDec value)
      else if isFloatShape value then .float value
      else if isBracketShape value then
        let inner := (value.drop 1).dropLast
        if trimStr inner = [] then .arr []
        else .arr ((splitComma inner).map (fun item => parseYamlValue (trimStr item)))
      else .str value := by
  show parseYamlValueF value.length value = _
  cases hv : value with
  | nil => rfl
  | cons c rest =>
    rw [← hv]
    have hlen : value.length = rest.length + 1 := by rw [hv]; rfl
    rw [hlen]
    simp only [parseYamlValueF]
    split
    · rfl
    · split
      · rfl
      · split
        · rfl
        · split
          · rfl
          · split
            · rfl
            · split
              · rfl
              · split
                · next hbr =>
                  split
                  · rfl
                  · next =>
                    congr 1
                    apply List.map_congr_left
                    intro item hitem
                    have hne : value ≠ [] := by rw [hv]; exact List.cons_ne_nil _ _
                    apply parseYamlValueF_stable
                    · have e1 : (trimStr item).length ≤ item.length := trimStr_length_le _
                      have e2 : item.length ≤ ((value.drop 1).dropLast).length :=
                        splitComma_length_le _ _ hitem
                      have e3 : ((value.drop 1).dropLast).length ≤ value.length - 2 := by
                        simp only [List.length_dropLast, List.length_drop]
                        omega
                      have e4 : 0 < value.length := List.length_pos.mpr hne
                      omega
                    · exact le_refl _
                · rfl

/-!
## parseYaml: the line loop of frontmatter.ts:229
-/

/-- `[a-zA-Z_]`, the first character of a frontmatter key. -/
def isIdentStart (c : Char) : Bool := isAlphaC c || c == '_'

/-- `[a-zA-Z0-9_-]`, the remaining characters of a frontmatter key. -/
def isIdentRest (c : Char) : Bool := isAlphaC c || isDigitC c || c == '_' || c == '-'

/-- The test `line.match(/^\s*-\s+/)` for an array item line: optional
whitespace, a dash, at least one whitespace character. -/
def matchArrayItemPfx (line : Str) : Bool :=
  match line.dropWhile isWS with
  | '-' :: rest =>
    match rest with
    | c :: _ => isWS c
    | [] => false
  | _ => false

/-- `line.replace(/^\s*-\s+/, "").trim()`: the value token of an array item
line (the greedy `\s+` removes the whole whitespace run after the dash;
the subsequent `trim` is the source's). -/
def arrayItemValue (line : Str) : Str :=
  match line.dropWhile isWS with
  | '-' :: rest => trimStr (rest.dropWhile isWS)
  | _ => trimStr line

/-- `line.match(/^([a-zA-Z_][a-zA-Z0-9_-]*)\s*:\s*(.*)?$/)`.

Returns the key (group 1) and group 2.  The greedy run of identifier
characters must be followed (after optional `\s`) by a colon; `(.*)` sees
the rest after the greedy `\s*` following the colon and must reach the end
of the line, so (since in JS `.` matches neither `\n` nor `\r` and `$` has
no `m` flag) the remainder must be free of carriage returns — lines from
`split(/\r?\n/)` are already free of `\n`. -/
def keyMatch (line : Str) : Option (Str × Str) :=
  match line with
  | c :: rest =>
    if isIdentStart c then
      let identTail := rest.takeWhile isIdentRest
      let after := rest.drop identTail.length
      match after.dropWhile isWS with
      | ':' :: r2 =>
        let g2 := r2.dropWhile isWS
        if g2.all (fun ch => ch ≠ '\r') then some (c :: identTail, g2) else none
      | _ => none
    else none
  | [] => none

/-- Mutable state of the `parseYaml` loop: the result record, `currentKey`
and `currentArray`. -/
structure PYState where
  result : List (Str × Yaml)
  currentKey : Str
  currentArray : Option (List Yaml)
  deriving Repr

/-- One iteration of the `for (const line of lines)` loop of `parseYaml`. -/
def parseYamlStep (st : PYState) (line : Str) : PYState :=
  -- if (!line.trim()) continue
  if trimStr line = [] then st
  else if matchArrayItemPfx line then
    -- array item: pushed only when an array is open, always `continue`
    match st.currentArray with
    | some xs => { st with currentArray := some (xs ++ [parseYamlValue (arrayItemValue line)]) }
    | none => st
  else
    match keyMatch line with
    | some (k, g2) =>
      -- save previous array if any
      let st1 :=
        match st.currentArray with
        | some xs =>
          if st.currentKey ≠ [] then
            { st with result := recSet st.result st.currentKey (.arr xs), currentArray := none }
          else st
        | none => st
      let valueStr := trimStr g2
      if valueStr = [] then
        -- empty value: start of an array (or nested object)
        { st1 with currentKey := k, currentArray := some [] }
      else
        { st1 with currentKey := k, currentArray := none,
                   result := recSet st1.result k (parseYamlValue valueStr) }
    | none => st

/-- Flush the pending array after the loop
(`if (currentArray !== null && currentKey)`). -/
def parseYamlFinish (st : PYState) : List (Str × Yaml) :=
  match st.currentArray with
  | some xs => if st.currentKey ≠ [] then recSet st.result st.currentKey (.arr xs) else st.result
  | none => st.result

/-- `parseYaml` (frontmatter.ts:229): split into lines and run the loop. -/
def parseYaml (yaml : Str) : List (Str × Yaml) :=
  parseYamlFinish ((splitLinesCRLF yaml).foldl parseYamlStep ⟨[], [], none⟩)

/-!
## The frontmatter block regex

`FRONTMATTER_REGEX = /^---\r?\n([\s\S]*?)\r?\n---\r?\n?/` (frontmatter.ts:29).
The lazy group ends at the earliest position where `\r?\n---` matches; the
trailing `\r?\n?` is then consumed greedily.
-/

/-- The mandatory part `\r?\n---` of the closing delimiter. -/
def delimDashes : Str → Option (Str × Str)
  | '\r' :: '\n' :: '-' :: '-' :: '-' :: r => some (['\r', '\n', '-', '-', '-'], r)
  | '\n' :: '-' :: '-' :: '-' :: r => some (['\n', '-', '-', '-'], r)
  | _ => none

/-- The greedy optional tail `\r?\n?` of the closing delimiter. -/
def delimTail : Str → Str × Str
  | '\r' :: '\n' :: r2 => (['\r', '\n'], r2)
  | '\r' :: r2 => (['\r'], r2)
  | '\n' :: r2 => (['\n'], r2)
  | r2 => ([], r2)

/-- Try to match `\r?\n---\r?\n?` at the current position; on success
return the consumed characters and the rest. -/
def delimConsume (s : Str) : Option (Str × Str) :=
  match delimDashes s with
  | some (d, r) => some (d ++ (delimTail r).1, (delimTail r).2)
  | none => none

/-- Scan for the earliest closing delimiter (the lazy `[\s\S]*?`): returns
(group, consumed delimiter, rest). -/
def findClose : Str → Option (Str × Str × Str)
  | [] => none
  | c :: cs =>
    match delimConsume (c :: cs) with
    | some (d, r) => some ([], d, r)
    | none =>
      match findClose cs with
      | some (g, d, r) => some (c :: g, d, r)
      | none => none

/-- The result of matching `FRONTMATTER_REGEX`: the full match (`raw`), the
captured group and the remaining input. -/
structure FMMatch where
  raw : Str
  group : Str
  rest : Str
  deriving Repr

/-- The opening `^---\r?\n` of `FRONTMATTER_REGEX`. -/
def fmLead : Str → Option (Str × Str)
  | '-' :: '-' :: '-' :: '\r' :: '\n' :: r => some (['-', '-', '-', '\r', '\n'], r)
  | '-' :: '-' :: '-' :: '\n' :: r => some (['-', '-', '-', '\n'], r)
  | _ => none

/-- `content.match(FRONTMATTER_REGEX)`: anchored at the start. -/
def frontmatterMatch (content : Str) : Option FMMatch :=
  match fmLead content with
  | some (l, r1) =>
    match findClose r1 with
    | some (g, d, rest) => some ⟨l ++ g ++ d, g, rest⟩
    | none => none
  | none => none

/-- The record returned by `parseFrontmatter`. -/
structure ParsedFrontmatter where
  frontmatter : List (Str × Yaml)
  body : Str
  raw : Str
  deriving Repr

/-- `parseFrontmatter` (frontmatter.ts:37).  `body` is
`content.slice(raw.length)`, which by construction of `frontmatterMatch` is
the unconsumed rest.  The `try`/`catch` of the source cannot fire: the
embedded `parseYaml` is total (in JS, too, `parseYaml` contains no throwing
operation); the catch branch returning empty frontmatter is therefore dead
code and has no counterpart here. -/
def parseFrontmatter (content : Str) : ParsedFrontmatter :=
  match frontmatterMatch content with
  | none => ⟨[], content, []⟩
  | some m => ⟨parseYaml m.group, m.rest, m.raw⟩

/-!
## stringifyYaml (frontmatter.ts:314) and stringifyFrontmatter
-/

/-- `value.replace(/"/g, '\\"')`: escape double quotes (only; newlines and
backslashes are left alone by the source). -/
def escapeQuotes : Str → Str
  | [] => []
  | '"' :: r => '\\' :: '"' :: escapeQuotes r
  | c :: r => c :: escapeQuotes r

/-- The quoting condition of `stringifyYamlValue` (frontmatter.ts:350):
contains `:`, `#` or a newline, starts or ends with a space, or starts with
one of the YAML-significant characters. -/
def needsQuote (s : Str) : Bool :=
  s.contains ':' || s.contains '#' || s.contains '\n' ||
  s.head? == some ' ' || s.getLast? == some ' ' ||
  (match s.head? with
   | some c =>
     c == '[' || c == ']' || c == '{' || c == '}' || c == '>' || c == '|' ||
       c == '*' || c == '&' || c == '!' || c == '%' || c == '@' || c == Char.ofNat 96
   | none => false)

/-- `Array.prototype.join(",")` as used by `String(array)`: `null` renders
as the empty string, other values via `String`. -/
def jsJoinComma : List Yaml → Str
  | [] => []
  | [.null] => []
  | [.str s] => s
  | [.int n] => intToStr n
  | [.float t] => t
  | [.bool true] => "true".data
  | [.bool false] => "false".data
  | [.arr ys] => jsJoinComma ys
  | .null :: xs => ',' :: jsJoinComma xs
  | .str s :: xs => s ++ ',' :: jsJoinComma xs
  | .int n :: xs => intToStr n ++ ',' :: jsJoinComma xs
  | .float t :: xs => t ++ ',' :: jsJoinComma xs
  | .bool true :: xs => "true".data ++ ',' :: jsJoinComma xs
  | .bool false :: xs => "false".data ++ ',' :: jsJoinComma xs
  | .arr ys :: xs => jsJoinComma ys ++ ',' :: jsJoinComma xs

/-- `stringifyYamlValue` (frontmatter.ts:344).  The `String(value)`
fallback is reached only for arrays (`Array.prototype.toString`). -/
def stringifyYamlValue : Yaml → Str
  | .null => "null".data
  | .bool true => "true".data
  | .bool false => "false".data
  | .int n => intToStr n
  | .float t => t
  | .str s => if needsQuote s then '"' :: (escapeQuotes s ++ ['"']) else s
  | .arr xs => jsJoinComma xs

/-- The lines contributed by one key of `stringifyYaml` (frontmatter.ts:318,
at indentation level 0; the nested-object branch is unreachable because the
value type has no nested-mapping constructor, mirroring the parser which
never produces one). -/
def stringifyYamlEntry (k : Str) (v : Yaml) : List Str :=
  match v with
  | .arr [] => [k ++ ": []".data]
  | .arr xs => (k ++ [':']) :: xs.map (fun item => "  - ".data ++ stringifyYamlValue item)
  | v => [k ++ ':' :: ' ' :: stringifyYamlValue v]

/-- `stringifyYaml` at indentation 0: joined lines plus a trailing
newline. -/
def stringifyYaml (obj : List (Str × Yaml)) : Str :=
  joinNL (obj.flatMap (fun p => stringifyYamlEntry p.1 p.2)) ++ ['\n']

/-- `stringifyFrontmatter` (frontmatter.ts:75): empty frontmatter yields
the empty string, otherwise the block is wrapped in `---` delimiter
lines. -/
def stringifyFrontmatter (fm : List (Str × Yaml)) : Str :=
  if fm.isEmpty then []
  else ("---".data ++ '\n' :: stringifyYaml fm) ++ "---".data ++ ['\n']

/-!
## Tag helpers (frontmatter.ts:134-198)
-/

/-- `tag.startsWith("#") ? tag.slice(1) : tag`. -/
def stripHash (t : Str) : Str :=
  match t with
  | '#' :: r => r
  | r => r

/-- Deduplicate in first-insertion order, as `[...new Set(list)]` does. -/
def jsDedup (l : List Yaml) : List Yaml :=
  l.foldl (fun acc x => if acc.any (jsSameValue x) then acc else acc ++ [x]) []

/-- `Array.isArray(frontmatter.tags) ? frontmatter.tags : []`, as used by
`addTags` and `getAllTags`. -/
def frontmatterTags (fm : List (Str × Yaml)) : List Yaml :=
  match recGet fm "tags".data with
  | some (.arr xs) => xs
  | _ => []

/-- `addTags` (frontmatter.ts:134): merge (deduplicated) normalized tags
into the frontmatter and re-serialize, whatever the input looked like. -/
def addTags (content : Str) (tags : List Str) : Str :=
  let pf := parseFrontmatter content
  let existingTags : List Yaml := frontmatterTags pf.frontmatter
  let normalizedTags := tags.map stripHash
  let allTags := jsDedup (existingTags ++ normalizedTags.map .str)
  stringifyFrontmatter (recSet pf.frontmatter "tags".data (.arr allTags)) ++ pf.body

/-- `removeTags` (frontmatter.ts:155).  When the parsed frontmatter has no
`tags` array the input content is returned unchanged.  (The filter applies
`toLowerCase` to the stored tags; a non-string tag value would make the
source throw, such values never occur in the filtered branch of the claims
and are kept unchanged here.) -/
def removeTags (content : Str) (tags : List Str) : Str :=
  let pf := parseFrontmatter content
  match recGet pf.frontmatter "tags".data with
  | some (.arr xs) =>
    let tagsToRemove := tags.map (fun t => lowerStr (stripHash t))
    let filteredTags := xs.filter (fun tag =>
      match tag with
      | .str s => !tagsToRemove.contains (lowerStr s)
      | _ => true)
    stringifyFrontmatter (recSet pf.frontmatter "tags".data (.arr filteredTags)) ++ pf.body
  | _ => content

/-- After a `#`, capture a tag: a letter followed by the greedy run of tag
characters; returns the tag and the rest.  This is the capture group both
tag regexes share. -/
def tagAfterHash : Str → Option (Str × Str)
  | c :: r =>
    if isAlphaC c then
      let tl := r.takeWhile isTagC
      some (c :: tl, r.drop tl.length)
    else none
  | [] => none

/-- The inline tag scan of `getAllTags` (frontmatter.ts:191): the global
regex matching `#` followed by a letter and then tag characters — note:
unlike `extractTagLinks` in markdown.ts there is no guard on the character
before the `#`.  On a `#` whose follower is no letter the scan advances
one character (which a failed `tagAfterHash` reproduces: the next match
attempt starts at the following character).  Structural fuel recursion;
`inlineTagScan` supplies fuel `s.length`, enough because every step
consumes at least one character. -/
def inlineTagScanF : Nat → Str → List Str
  | 0, _ => []
  | _ + 1, [] => []
  | fuel + 1, c0 :: rest =>
    if c0 == '#' then
      match tagAfterHash rest with
      | some (tg, r2) => tg :: inlineTagScanF fuel r2
      | none => inlineTagScanF fuel rest
    else inlineTagScanF fuel rest

/-- All matches of the inline tag regex of `getAllTags`. -/
def inlineTagScan (s : Str) : List Str := inlineTagScanF s.length s

/-- `getAllTags` (frontmatter.ts:181): the `Set` is filled first with the
frontmatter `tags` array (whatever values it holds), then with each inline
match, and read back in insertion order. -/
def getAllTags (content : Str) : List Yaml :=
  let pf := parseFrontmatter content
  jsDedup (frontmatterTags pf.frontmatter ++ (inlineTagScan pf.body).map .str)

/-!
## Markdown structure extractor (markdown.ts)
-/

/-- Kind of a `NoteLink`. -/
inductive LinkKind where
  | internal
  | external
  | tag
  deriving Repr, DecidableEq

/-- The `NoteLink` record of types/obsidian.ts as produced by the
extractors (the `source` field is filled by callers). -/
structure NoteLink where
  source : Str
  target : Str
  displayText : Str
  isEmbed : Bool
  kind : LinkKind
  deriving Repr, DecidableEq

/-- Try to match the wikilink regex of `extractInternalLinks`
(markdown.ts:102) at the current position:
embed bang (optional), `[[`, a nonempty greedy run of characters other than
`]`, `|`, `#` (the target), an optional `#heading` whose body is a nonempty
run of characters other than `]`, `|`, an optional `|display` whose body is
a nonempty run of characters other than `]`, then `]]`.  A leftover `#` or
`|` whose group body would be empty makes the whole match fail, exactly as
the regex backtracking does. -/
def wikiTryAt (s : Str) : Option (NoteLink × Str) :=
  let core (isEmbed : Bool) (t : Str) : Option (NoteLink × Str) :=
    let tgt := t.takeWhile (fun c => c != ']' && c != '|' && c != '#')
    if tgt.isEmpty then none
    else
      let r1 := t.drop tgt.length
      let headingAndRest : Option Str × Str :=
        match r1 with
        | '#' :: hr =>
          let h := hr.takeWhile (fun c => c != ']' && c != '|')
          if h.isEmpty then (none, r1) else (some h, hr.drop h.length)
        | _ => (none, r1)
      let heading? := headingAndRest.1
      let r2 := headingAndRest.2
      let dispAndRest : Option Str × Str :=
        match r2 with
        | '|' :: dr =>
          let d := dr.takeWhile (fun c => c != ']')
          if d.isEmpty then (none, r2) else (some d, dr.drop d.length)
        | _ => (none, r2)
      let disp? := dispAndRest.1
      let r3 := dispAndRest.2
      match r3 with
      | ']' :: ']' :: rest =>
        let target0 := trimStr tgt
        let target :=
          match heading? with
          | some h => target0 ++ '#' :: trimStr h
          | none => target0
        let dt :=
          match disp? with
          | some d => if trimStr d = [] then target0 else trimStr d
          | none => target0
        some ({ source := [], target := target, displayText := dt,
                isEmbed := isEmbed, kind := .internal }, rest)
      | _ => none
  match s with
  | '!' :: '[' :: '[' :: t => core true t
  | '[' :: '[' :: t => core false t
  | _ => none

/-- Global scan for `extractInternalLinks` (markdown.ts:97), fuel
structural: on a match the scan resumes after the match, otherwise it
advances one character. -/
def extractInternalLinksF : Nat → Str → List NoteLink
  | 0, _ => []
  | _ + 1, [] => []
  | fuel + 1, c :: rest =>
    match wikiTryAt (c :: rest) with
    | some (l, r) => l :: extractInternalLinksF fuel r
    | none => extractInternalLinksF fuel rest

/-- `extractInternalLinks` (markdown.ts:97). -/
def extractInternalLinks (content : Str) : List NoteLink :=
  extractInternalLinksF content.length content

/-- Try to match `\[([^\]]+)\]\(([^)]+)\)` at the current position:
returns (display, url, rest). -/
def mdLinkTryAt (s : Str) : Option (Str × Str × Str) :=
  match s with
  | '[' :: t =>
    let d := t.takeWhile (fun c => c != ']')
    if d.isEmpty then none
    else
      match t.drop d.length with
      | ']' :: '(' :: u =>
        let url := u.takeWhile (fun c => c != ')')
        if url.isEmpty then none
        else
          match u.drop url.length with
          | ')' :: rest => some (d, url, rest)
          | _ => none
      | _ => none
  | _ => none

/-- `url.startsWith("http://") || url.startsWith("https://")`. -/
def startsWithHttp (url : Str) : Bool :=
  List.isPrefixOf "http://".data url || List.isPrefixOf "https://".data url

/-- Global scan for `extractExternalLinks` (markdown.ts:129): a matched
`[text](url)` whose url is not http(s) is skipped (the scan still resumes
after it, as the regex engine's `lastIndex` does). -/
def extractExternalLinksF : Nat → Str → List NoteLink
  | 0, _ => []
  | _ + 1, [] => []
  | fuel + 1, c :: rest =>
    match mdLinkTryAt (c :: rest) with
    | some (d, url, r) =>
      if startsWithHttp url then
        { source := [], target := url, displayText := d,
          isEmbed := false, kind := .external } :: extractExternalLinksF fuel r
      else extractExternalLinksF fuel r
    | none => extractExternalLinksF fuel rest

/-- `extractExternalLinks` (markdown.ts:129). -/
def extractExternalLinks (content : Str) : List NoteLink :=
  extractExternalLinksF content.length content

/-- A tag `NoteLink` (markdown.ts:172): `displayText` is the tag with its
hash. -/
def mkTagLink (tg : Str) : NoteLink :=
  { source := [], target := tg, displayText := '#' :: tg, isEmbed := false, kind := .tag }

/-- Outcome of trying the `[^\w]#tag` alternative at the current position
with guard character `c0`: either a tag is matched (with the rest of the
input after it) or the scan advances one character. -/
inductive TagStep where
  | emit (tg : Str) (rest : Str)
  | advance
  deriving Repr

/-- The `[^\w]#tag` alternative of the tag regex: the guard character must
be non-word and is part of (consumed by) the match. -/
def tagGuardStep (c0 : Char) (rest : Str) : TagStep :=
  if isWordC c0 then .advance
  else
    match rest with
    | '#' :: r1 =>
      match tagAfterHash r1 with
      | some (tg, r2) => .emit tg r2
      | none => .advance
    | _ => .advance

/-- Global scan for `extractTagLinks` (markdown.ts:163), regex
`(?:^|[^\w])#(tag)`: at the very start (`atStart`) the `^` alternative is
tried first and needs no guard character; everywhere (and whenever `^`
fails) the `[^\w]` alternative applies.  On failure the scan advances one
character. -/
def extractTagLinksF : Nat → Bool → Str → List NoteLink
  | 0, _, _ => []
  | _ + 1, _, [] => []
  | fuel + 1, atStart, c0 :: rest =>
    if atStart && c0 == '#' then
      match tagAfterHash rest with
      | some (tg, r2) => mkTagLink tg :: extractTagLinksF fuel false r2
      | none =>
        match tagGuardStep c0 rest with
        | .emit tg r2 => mkTagLink tg :: extractTagLinksF fuel false r2
        | .advance => extractTagLinksF fuel false rest
    else
      match tagGuardStep c0 rest with
      | .emit tg r2 => mkTagLink tg :: extractTagLinksF fuel false r2
      | .advance => extractTagLinksF fuel false rest

/-- `extractTagLinks` (markdown.ts:163). -/
def extractTagLinks (content : Str) : List NoteLink :=
  extractTagLinksF content.length true content

/-!
## getSummary (markdown.ts:317)

The cleaning pipeline of `getSummary` is a chain of regex replaces; each
is embedded as a scanner below.  The final comparison
`lastSpace > maxLength * 0.7` is IEEE binary64 arithmetic: `0.7` is the
double `3152519739159347 / 2 ^ 52` and the product is rounded to 53
significant bits (round to nearest, ties to even).  The comparison is
modelled exactly, scaled by `2 ^ 52` to stay in integers: this matters,
e.g. for `maxLength = 90` the double product is just below `63`, so a last
space at index 63 is taken although `63 = 0.7 * 90` exactly.
-/

/-- Binary length of a natural number (`0` for `0`), with structural
fuel. -/
def bitLenF : Nat → Nat → Nat
  | 0, _ => 0
  | fuel + 1, n => if n = 0 then 0 else bitLenF fuel (n / 2) + 1

/-- Binary length of a natural number. -/
def bitLen (n : Nat) : Nat := bitLenF n n

/-- The significand of `fl(0.7)`: `0.7` rounds to
`3152519739159347 * 2 ^ (-52)`. -/
def fl07num : Nat := 3152519739159347

/-- Round a positive integer to 53 significant binary digits (round to
nearest, ties to even), the rounding binary64 multiplication performs on
an exact integer product. -/
def roundTo53 (M : Nat) : Nat :=
  let s := bitLen M
  if s ≤ 53 then M
  else
    let shift := s - 53
    let q := M / 2 ^ shift
    let r := M % 2 ^ shift
    let half := 2 ^ (shift - 1)
    let q' := if r > half || (r == half && q % 2 == 1) then q + 1 else q
    q' * 2 ^ shift

/-- `2 ^ 52 * fl(N * 0.7)` as an exact integer: the numerator of the
binary64 product `N * 0.7` over the fixed denominator `2 ^ 52`.  (Exact
for every `N < 2 ^ 53`, which covers every length a JavaScript string can
have.) -/
def jsMul07num (N : Nat) : Nat := roundTo53 (N * fl07num)

/-- The branch condition `lastSpace > maxLength * 0.7` of `getSummary`,
scaled by `2 ^ 52`. -/
def gtJsMul07 (lastSpace : Int) (N : Nat) : Bool :=
  lastSpace * 2 ^ 52 > (jsMul07num N : Int)

/-- `content.replace(/^---[\s\S]*?---\n?/, "")`, the frontmatter strip of
`getSummary` (a single, anchored replace; unlike `FRONTMATTER_REGEX` no
newline is required after the opening dashes).  `findDashes` locates the
earliest `---` (the lazy group). -/
def findDashes : Str → Option Str
  | [] => none
  | '-' :: '-' :: '-' :: r => some r
  | _ :: cs => findDashes cs

/-- The frontmatter strip of `getSummary`. -/
def stripFMForSummary (content : Str) : Str :=
  match content with
  | '-' :: '-' :: '-' :: r =>
    match findDashes r with
    | some rest =>
      match rest with
      | '\n' :: r2 => r2
      | r2 => r2
    | none => content
  | _ => content

/-- `.+$` tail of the heading regex after choosing how much of the
whitespace run `\s+` keeps (the regex backtracks from the greedy maximum
`j` down to one character): the run of `.`-characters (anything but `\n`
and `\r`) must be nonempty and must extend to a `\n` or the end. -/
def tryHeadTail (t1 : Str) : Nat → Option Str
  | 0 => none
  | j + 1 =>
    let t2 := t1.drop (j + 1)
    let run := t2.takeWhile (fun c => c != '\n' && c != '\r')
    let after := t2.drop run.length
    if !run.isEmpty && (after.isEmpty || after.head? == some '\n') then some after
    else tryHeadTail t1 j

/-- Try to match `#+\s+.+$` (of `/^#+\s+.+$/gm`) at a line start; on
success return the input minus the match (the `$` does not consume the
newline). -/
def headingMatchAt (s : Str) : Option Str :=
  let hashes := s.takeWhile (fun c => c == '#')
  if hashes.isEmpty then none
  else
    let t1 := s.drop hashes.length
    let ws := t1.takeWhile isWS
    if ws.isEmpty then none else tryHeadTail t1 ws.length

/-- Driver of the heading strip: `^` (with the `m` flag) matches at the
start and after each newline. -/
def stripHeadingsF : Nat → Bool → Str → Str
  | 0, _, s => s
  | _ + 1, _, [] => []
  | fuel + 1, atLineStart, c :: rest =>
    if atLineStart then
      match headingMatchAt (c :: rest) with
      | some after => stripHeadingsF fuel false after
      | none => c :: stripHeadingsF fuel (c == '\n') rest
    else c :: stripHeadingsF fuel (c == '\n') rest

/-- `.replace(/^#+\s+.+$/gm, "")` of `getSummary`. -/
def stripHeadings (s : Str) : Str := stripHeadingsF s.length true s

/-- Try to match the wikilink-replace regex of `getSummary`
(`\[\[target(|display)?\]\]`, no heading group) at this position; returns
(target, display-or-empty, rest).  The replacement is `"$2$1"`. -/
def sumWikiTryAt (s : Str) : Option (Str × Str × Str) :=
  match s with
  | '[' :: '[' :: t =>
    let tgt := t.takeWhile (fun c => c != ']' && c != '|')
    if tgt.isEmpty then none
    else
      let r1 := t.drop tgt.length
      let dispAndRest : Str × Str :=
        match r1 with
        | '|' :: dr =>
          let d := dr.takeWhile (fun c => c != ']')
          if d.isEmpty then ([], r1) else (d, dr.drop d.length)
        | _ => ([], r1)
      match dispAndRest.2 with
      | ']' :: ']' :: rest => some (tgt, dispAndRest.1, rest)
      | _ => none
  | _ => none

/-- Wikilink replace of `getSummary`: `[[a|b]]` becomes `ba` (the
replacement string concatenates group 2 before group 1). -/
def replaceWikiF : Nat → Str → Str
  | 0, s => s
  | _ + 1, [] => []
  | fuel + 1, c :: rest =>
    match sumWikiTryAt (c :: rest) with
    | some (tgt, d, r) => d ++ tgt ++ replaceWikiF fuel r
    | none => c :: replaceWikiF fuel rest

/-- `.replace` of wikilinks in `getSummary`. -/
def replaceWiki (s : Str) : Str := replaceWikiF s.length s

/-- Markdown-link replace of `getSummary`: `[text](url)` becomes `text`
(the url match is reused from `mdLinkTryAt`, the regexes coincide). -/
def replaceMdLinkF : Nat → Str → Str
  | 0, s => s
  | _ + 1, [] => []
  | fuel + 1, c :: rest =>
    match mdLinkTryAt (c :: rest) with
    | some (d, _, r) => d ++ replaceMdLinkF fuel r
    | none => c :: replaceMdLinkF fuel rest

/-- `.replace` of markdown links in `getSummary`. -/
def replaceMdLink (s : Str) : Str := replaceMdLinkF s.length s

/-- Try to match the image regex `!\[alt\](url)` (alt may be empty, url
must not) at this position; returns the rest. -/
def imgTryAt (s : Str) : Option Str :=
  match s with
  | '!' :: '[' :: t =>
    let alt := t.takeWhile (fun c => c != ']')
    match t.drop alt.length with
    | ']' :: '(' :: u =>
      let url := u.takeWhile (fun c => c != ')')
      if url.isEmpty then none
      else
        match u.drop url.length with
        | ')' :: rest => some rest
        | _ => none
    | _ => none
  | _ => none

/-- Image removal of `getSummary`. -/
def stripImagesF : Nat → Str → Str
  | 0, s => s
  | _ + 1, [] => []
  | fuel + 1, c :: rest =>
    match imgTryAt (c :: rest) with
    | some r => stripImagesF fuel r
    | none => c :: stripImagesF fuel rest

/-- `.replace` of images in `getSummary`. -/
def stripImages (s : Str) : Str := stripImagesF s.length s

/-- The backtick character. -/
def tickC : Char := Char.ofNat 96

/-- Find the earliest closing triple backtick; returns the rest after
it. -/
def findTicks : Str → Option Str
  | c1 :: c2 :: c3 :: r =>
    if c1 == tickC && c2 == tickC && c3 == tickC then some r
    else findTicks (c2 :: c3 :: r)
  | _ => none

/-- Fenced code block removal of `getSummary` (lazy: up to the earliest
closing fence; an unclosed fence does not match). -/
def stripCodeBlocksF : Nat → Str → Str
  | 0, s => s
  | _ + 1, [] => []
  | fuel + 1, c1 :: rest =>
    match c1 :: rest with
    | c1' :: c2 :: c3 :: r =>
      if c1' == tickC && c2 == tickC && c3 == tickC then
        match findTicks r with
        | some r2 => stripCodeBlocksF fuel r2
        | none => c1 :: stripCodeBlocksF fuel rest
      else c1 :: stripCodeBlocksF fuel rest
    | _ => c1 :: stripCodeBlocksF fuel rest

/-- `.replace` of fenced code blocks in `getSummary`. -/
def stripCodeBlocks (s : Str) : Str := stripCodeBlocksF s.length s

/-- Inline code removal: a backtick, a nonempty run without backticks, a
backtick. -/
def inlineCodeTryAt (s : Str) : Option Str :=
  match s with
  | c :: t =>
    if c == tickC then
      let run := t.takeWhile (fun ch => ch != tickC)
      if run.isEmpty then none
      else
        match t.drop run.length with
        | c2 :: rest => if c2 == tickC then some rest else none
        | [] => none
    else none
  | [] => none

/-- Inline code removal of `getSummary`. -/
def stripInlineCodeF : Nat → Str → Str
  | 0, s => s
  | _ + 1, [] => []
  | fuel + 1, c :: rest =>
    match inlineCodeTryAt (c :: rest) with
    | some r => stripInlineCodeF fuel r
    | none => c :: stripInlineCodeF fuel rest

/-- `.replace` of inline code in `getSummary`. -/
def stripInlineCode (s : Str) : Str := stripInlineCodeF s.length s

/-- `.replace(/\s+/g, " ")`: each maximal whitespace run becomes one
space. -/
def collapseWSF (prevWS : Bool) : Str → Str
  | [] => []
  | c :: rest =>
    if isWS c then
      if prevWS then collapseWSF true rest else ' ' :: collapseWSF true rest
    else c :: collapseWSF false rest

/-- Whitespace collapse of `getSummary`. -/
def collapseWS (s : Str) : Str := collapseWSF false s

/-- The whole cleaning pipeline of `getSummary`, in source order:
frontmatter, headings, wikilinks, markdown links, images, fenced code,
inline code, whitespace collapse, trim. -/
def cleanForSummary (content : Str) : Str :=
  trimStr (collapseWS (stripInlineCode (stripCodeBlocks (stripImages
    (replaceMdLink (replaceWiki (stripHeadings (stripFMForSummary content))))))))

/-- `truncated.lastIndexOf(" ")`: `-1` when there is no space. -/
def lastIndexOfSpace (s : Str) : Int :=
  match s.reverse.findIdx? (fun c => c == ' ') with
  | some j => ((s.length - 1 - j : Nat) : Int)
  | none => -1

/-- `getSummary` (markdown.ts:317). -/
def getSummary (content : Str) (maxLength : Nat) : Str :=
  let cleaned := cleanForSummary content
  if cleaned.length ≤ maxLength then cleaned
  else
    let truncated := cleaned.take maxLength
    let lastSpace := lastIndexOfSpace truncated
    if gtJsMul07 lastSpace maxLength then
      truncated.take lastSpace.toNat ++ "...".data
    else truncated ++ "...".data

/-!
## Link analysis tools (tools/links.ts)

The handlers consume the external Vault Accessor: `listAllFiles` produces
the file list and `getFile` each note's content.  A vault snapshot is
embedded as the enumeration result (`Except Unit` — a failing enumeration
is the only hard error) over records carrying each file's attributes and
its content, where `content = none` means reading that file throws (the
handlers catch this per file and skip it). -/

/-- A file of the vault snapshot as the handlers see it: the `VaultItem`
fields produced by `listAllFiles` plus the outcome of `getFile`. -/
structure VFile where
  path : Str
  isDir : Bool
  ext : Option Str
  content : Option Str
  deriving Repr, DecidableEq

/-- The filter `f.type === "file" && f.extension === "md"` applied by all
three handlers. -/
def isMdFile (f : VFile) : Bool := !f.isDir && f.ext == some "md".data

/-- `path.replace(/\.md$/, "")`. -/
def stripMdExt (p : Str) : Str :=
  if List.isSuffixOf ".md".data p then p.take (p.length - 3) else p

/-- `path.split("/").pop()`: the last path segment. -/
def lastSegment (p : Str) : Str := (splitSlash p).getLastD []

/-- `link.target.split("#")[0]`: the target up to a heading reference. -/
def targetBase (t : Str) : Str := t.takeWhile (fun c => c != '#')

/-- The broken-link report (`filesChecked`, the broken `{source, target}`
pairs, and their count as serialized). -/
structure BrokenReport where
  filesChecked : Nat
  brokenLinks : List (Str × Str)
  brokenLinksCount : Nat
  deriving Repr, DecidableEq

/-- The existence index of `find_broken_links` (links.ts:206): every
markdown path in three lowercase forms — full path, path minus `.md`,
bare filename minus `.md`. -/
def existingNotesIndex (mdFiles : List VFile) : List Str :=
  mdFiles.foldl (fun acc f =>
    listSetAdd (listSetAdd (listSetAdd acc
      (lowerStr f.path))
      (lowerStr (stripMdExt f.path)))
      (lowerStr (stripMdExt (lastSegment f.path)))) []

/-- The existence test of `find_broken_links` (links.ts:232): index
membership of the lowercased target with and without `.md`, or a markdown
path ending in `/target(.md)`. -/
def brokenTargetExists (index : List Str) (mdFiles : List VFile) (tLower : Str) : Bool :=
  index.contains tLower ||
  index.contains (tLower ++ ".md".data) ||
  mdFiles.any (fun f =>
    List.isSuffixOf ('/' :: tLower ++ ".md".data) (lowerStr f.path) ||
    List.isSuffixOf ('/' :: tLower) (lowerStr f.path))

/-- The broken links a single readable note contributes. -/
def fileBrokenLinks (index : List Str) (mdFiles : List VFile) (f : VFile) (content : Str) :
    List (Str × Str) :=
  (extractInternalLinks content).filterMap (fun l =>
    if brokenTargetExists index mdFiles (lowerStr (targetBase l.target)) then none
    else some (f.path, l.target))

/-- The `find_broken_links` handler (links.ts:197): scan at most 200
markdown files, skip the unreadable ones, always report
`filesChecked = min(count, 200)`; only a failing enumeration escapes. -/
def findBrokenLinks (enum : Except Unit (List VFile)) : Except Unit BrokenReport :=
  match enum with
  | .error e => .error e
  | .ok allFiles =>
    let mdFiles := allFiles.filter isMdFile
    let index := existingNotesIndex mdFiles
    let broken := (mdFiles.take 200).foldl (fun acc f =>
      match f.content with
      | none => acc
      | some content => acc ++ fileBrokenLinks index mdFiles f content) []
    .ok ⟨min mdFiles.length 200, broken, broken.length⟩

/-- The orphan report (`totalNotes`, `orphanCount`, the reported orphans
capped at 100, `truncated`). -/
structure OrphanReport where
  totalNotes : Nat
  orphanCount : Nat
  orphans : List (Str × Bool)
  truncated : Bool
  deriving Repr, DecidableEq

/-- The link map of `find_orphan_notes` (links.ts:322): over the first 300
markdown files, record which files have outgoing internal links and the
lowercased targets (with and without `.md`) that are linked to. -/
def orphanLinkMap (mdFiles : List VFile) : List Str × List Str :=
  (mdFiles.take 300).foldl (fun st f =>
    match f.content with
    | none => st
    | some content =>
      let links := extractInternalLinks content
      let ho := if links.length > 0 then listSetAdd st.2 f.path else st.2
      let lt := links.foldl (fun acc l =>
        let t := lowerStr (targetBase l.target)
        listSetAdd (listSetAdd acc t) (t ++ ".md".data)) st.1
      (lt, ho)) ([], [])

/-- The `find_orphan_notes` handler (links.ts:294).  The reported pair is
`(path, hasOutgoingLinks)`. -/
def findOrphanNotes (enum : Except Unit (List VFile)) (includeUnlinked : Bool) :
    Except Unit OrphanReport :=
  match enum with
  | .error e => .error e
  | .ok allFiles =>
    let mdFiles := allFiles.filter isMdFile
    let maps := orphanLinkMap mdFiles
    let linkedTo := maps.1
    let hasOutgoingLinks := maps.2
    let orphans := mdFiles.foldl (fun acc f =>
      let noteName := lowerStr (stripMdExt (lastSegment f.path))
      let isLinkedTo :=
        linkedTo.contains noteName ||
        linkedTo.contains (noteName ++ ".md".data) ||
        linkedTo.contains (lowerStr f.path)
      if isLinkedTo then acc
      else
        let hasLinks := hasOutgoingLinks.contains f.path
        if !includeUnlinked || !hasLinks then acc ++ [(f.path, hasLinks)] else acc) []
    .ok ⟨mdFiles.length, orphans.length, orphans.take 100, orphans.length > 100⟩

/-- A node of the link-graph export. -/
structure GraphNode where
  id : Str
  label : Str
  deriving Repr, DecidableEq

/-- An edge of the link-graph export. -/
structure GraphEdge where
  source : Str
  target : Str
  deriving Repr, DecidableEq

/-- The graph report. -/
structure GraphReport where
  nodes : List GraphNode
  edges : List GraphEdge
  nodeCount : Nat
  edgeCount : Nat
  deriving Repr, DecidableEq

/-- The node-name set of `get_link_graph_data` (links.ts:522): the
lowercased `.md`-stripped paths of the capped file list. -/
def graphNoteNames (capped : List VFile) : List Str :=
  capped.foldl (fun acc f => listSetAdd acc (lowerStr (stripMdExt f.path))) []

/-- The edges one readable capped file contributes (links.ts:536): only
non-embed links whose heading-stripped target is among the capped note
names (case-insensitively); the edge keeps the target's original case. -/
def fileGraphEdges (noteNames : List Str) (f : VFile) (content : Str) : List GraphEdge :=
  (extractInternalLinks content).filterMap (fun l =>
    if l.isEmbed then none
    else
      let t := targetBase l.target
      if noteNames.contains (lowerStr t) then some ⟨stripMdExt f.path, t⟩ else none)

/-- The `get_link_graph_data` handler (links.ts:491). -/
def getLinkGraphData (enum : Except Unit (List VFile)) (maxNotes : Nat) :
    Except Unit GraphReport :=
  match enum with
  | .error e => .error e
  | .ok allFiles =>
    let mdFiles := (allFiles.filter isMdFile).take maxNotes
    let nodes := mdFiles.map (fun f => GraphNode.mk (stripMdExt f.path) (stripMdExt (lastSegment f.path)))
    let noteNames := graphNoteNames mdFiles
    let edges := mdFiles.foldl (fun acc f =>
      match f.content with
      | none => acc
      | some content => acc ++ fileGraphEdges noteNames f content) []
    .ok ⟨nodes, edges, nodes.length, edges.length⟩

/-!
## Claim theorems
-/

/-- C3.  Scalar coercion order: `parseYamlValue` applies its coercions in
the fixed order quoted string → boolean → null → integer → float →
bracketed inline array (comma-split, elements recursively coerced) →
fallback raw string; each clause fires exactly when every earlier test
failed and its own test succeeds.  In particular the quoted token `"42"`
parses as the string `42` while the bare token `42` parses as the integer
`42`. -/
theorem parseYamlValue_coercion_order (v : Str) :
    (isQuotedShape v = true → parseYamlValue v = .str (v.drop 1).dropLast) ∧
    (isQuotedShape v = false → lowerStr v = "true".data → parseYamlValue v = .bool true) ∧
    (isQuotedShape v = false → lowerStr v = "false".data → parseYamlValue v = .bool false) ∧
    (isQuotedShape v = false → lowerStr v ≠ "true".data → lowerStr v ≠ "false".data →
      (lowerStr v = "null".data ∨ v = "~".data) → parseYamlValue v = .null) ∧
    (isQuotedShape v = false → lowerStr v ≠ "true".data → lowerStr v ≠ "false".data →
      lowerStr v ≠ "null".data → v ≠ "~".data → isIntShape v = true →
      parseYamlValue v = .int (parseIntDec v)) ∧
    (isQuotedShape v = false → lowerStr v ≠ "true".data → lowerStr v ≠ "false".data →
      lowerStr v ≠ "null".data → v ≠ "~".data → isIntShape v = false → isFloatShape v = true →
      parseYamlValue v = .float v) ∧
    (isQuotedShape v = false → lowerStr v ≠ "true".data → lowerStr v ≠ "false".data →
      lowerStr v ≠ "null".data → v ≠ "~".data → isIntShape v = false → isFloatShape v = false →
      isBracketShape v = true →
      parseYamlValue v =
        (if trimStr ((v.drop 1).dropLast) = [] then .arr []
         else .arr ((splitComma ((v.drop 1).dropLast)).map
           (fun item => parseYamlValue (trimStr item))))) ∧
    (isQuotedShape v = false → lowerStr v ≠ "true".data → lowerStr v ≠ "false".data →
      lowerStr v ≠ "null".data → v ≠ "~".data → isIntShape v = false → isFloatShape v = false →
      isBracketShape v = false → parseYamlValue v = .str v) ∧
    parseYamlValue ('"' :: '4' :: '2' :: '"' :: []) = .str "42".data ∧
    parseYamlValue "42".data = .int 42 := by
  refine ⟨?_, ?_, ?_, ?_, ?_, ?_, ?_, ?_, by rfl, by rfl⟩
  · intro h1
    rw [parseYamlValue_eq]
    simp [h1]
  · intro h1 h2
    rw [parseYamlValue_eq]
    simp [h1, h2]
  · intro h1 h2
    rw [parseYamlValue_eq]
    have : lowerStr v ≠ "true".data := by
      rw [h2]
      decide
    simp [h1, h2, this]
  · intro h1 h2 h3 h4
    rw [parseYamlValue_eq]
    rcases h4 with h4 | h4
    · simp [h1, h2, h3, h4]
    · subst h4
      rfl
  · intro h1 h2 h3 h4 h5 h6
    rw [parseYamlValue_eq]
    simp [h1, h2, h3, h4, h5, h6]
  · intro h1 h2 h3 h4 h5 h6 h7
    rw [parseYamlValue_eq]
    simp [h1, h2, h3, h4, h5, h6, h7]
  · intro h1 h2 h3 h4 h5 h6 h7 h8
    rw [parseYamlValue_eq]
    simp [h1, h2, h3, h4, h5, h6, h7, h8]
  · intro h1 h2 h3 h4 h5 h6 h7 h8
    rw [parseYamlValue_eq]
    simp [h1, h2, h3, h4, h5, h6, h7, h8]

/-- Witness for C3: the coercion-order theorem applied at the two tokens
the claim singles out — the quoted `"42"` (first clause) and the bare `42`
(integer clause), with every earlier test discharged by computation. -/
theorem parseYamlValue_coercion_order_witness :
    parseYamlValue ('"' :: '4' :: '2' :: '"' :: []) = .str "42".data ∧
    parseYamlValue "42".data = .int (parseIntDec "42".data) := by
  constructor
  · exact (parseYamlValue_coercion_order ('"' :: '4' :: '2' :: '"' :: [])).1 (by decide)
  · exact (parseYamlValue_coercion_order "42".data).2.2.2.2.1
      (by decide) (by decide) (by decide) (by decide) (by decide) (by decide)

/-- C1 counterexample: the round-trip law fails as stated.  For the
frontmatter `{title: "42"}` (a supported shape: a single string scalar)
and the empty body, serialization emits the token `42` unquoted, and
re-parsing coerces it to the integer `42`, which is not value-equal to the
string `"42"`. -/
theorem frontmatter_roundtrip_counterexample :
    stringifyFrontmatter [("title".data, Yaml.str "42".data)] ++ ([] : Str) =
      "---\ntitle: 42\n---\n".data ∧
    (parseFrontmatter "---\ntitle: 42\n---\n".data).frontmatter =
      [("title".data, Yaml.int 42)] ∧
    (parseFrontmatter "---\ntitle: 42\n---\n".data).body = ([] : Str) ∧
    Yaml.int 42 ≠ Yaml.str "42".data := by
  refine ⟨by rfl, by rfl, by rfl, ?_⟩
  intro h
  exact Yaml.noConfusion h

/-- C2: the code contradicts the claimed (and self-documented) default.
With `includeUnlinked = false` (the default) a fully isolated note —
`A.md`, empty, linked to by nobody, with zero outgoing links — IS reported
as an orphan (first conjunct), contrary to the claim that it be excluded.
The flag's behavior is inverted: `includeUnlinked = true`, documented as
"also include notes that don't link to anything", instead NARROWS the
result — a note `B.md` that links to a nonexistent `C` and is linked to by
nobody is reported under the default (third conjunct) but dropped when
`includeUnlinked = true` (second conjunct). -/
theorem find_orphan_notes_default_includes_isolated :
    findOrphanNotes (.ok [⟨"A.md".data, false, some "md".data, some []⟩]) false =
      .ok ⟨1, 1, [("A.md".data, false)], false⟩ ∧
    findOrphanNotes (.ok [⟨"B.md".data, false, some "md".data, some "[[C]]".data⟩]) true =
      .ok ⟨1, 0, [], false⟩ ∧
    findOrphanNotes (.ok [⟨"B.md".data, false, some "md".data, some "[[C]]".data⟩]) false =
      .ok ⟨1, 1, [("B.md".data, true)], false⟩ := by
  exact ⟨by rfl, by rfl, by rfl⟩

/-- C10.  `removeTags` is the identity, byte for byte, on every content
whose parsed frontmatter has no `tags` array (first conjunct), while
`addTags` re-serializes even when the added tag list is empty and the note
had no frontmatter at all: on the plain body `hello` it prepends a
`tags: []` block (second/third conjuncts) where `removeTags` leaves the
note untouched (fourth conjunct). -/
theorem removeTags_identity_vs_addTags :
    (∀ (content : Str) (tags : List Str),
      (∀ xs, recGet (parseFrontmatter content).frontmatter "tags".data ≠ some (.arr xs)) →
      removeTags content tags = content) ∧
    addTags "hello".data [] = "---\ntags: []\n---\nhello".data ∧
    addTags "hello".data [] ≠ "hello".data ∧
    removeTags "hello".data ["x".data] = "hello".data := by
  refine ⟨?_, by rfl, by decide, by rfl⟩
  intro content tags h
  unfold removeTags
  cases hg : recGet (parseFrontmatter content).frontmatter "tags".data with
  | none => simp [hg]
  | some v =>
    cases v with
    | arr xs => exact absurd hg (h xs)
    | str s => simp [hg]
    | int n => simp [hg]
    | float t => simp [hg]
    | bool b => simp [hg]
    | null => simp [hg]

/-- Witness for C10: the identity clause applied to a concrete note whose
frontmatter has a `tags` key holding a scalar (not an array): the note
comes back unchanged. -/
theorem removeTags_identity_witness :
    removeTags "---\ntags: 1\n---\nbody".data ["a".data] = "---\ntags: 1\n---\nbody".data := by
  apply removeTags_identity_vs_addTags.1
  intro xs h
  rw [show recGet (parseFrontmatter "---\ntags: 1\n---\nbody".data).frontmatter "tags".data =
      some (Yaml.int 1) from rfl] at h
  simp at h

/-- Every link the external-link scanner emits has an `http://` or
`https://` target: the scanner drops every other matched `[text](url)`. -/
theorem extractExternalLinksF_http :
    ∀ (fuel : Nat) (s : Str) (l : NoteLink),
      l ∈ extractExternalLinksF fuel s → startsWithHttp l.target = true := by
  intro fuel
  induction fuel with
  | zero =>
    intro s l h
    simp [extractExternalLinksF] at h
  | succ fuel ih =>
    intro s l h
    cases s with
    | nil => simp [extractExternalLinksF] at h
    | cons c rest =>
      simp only [extractExternalLinksF] at h
      split at h
      · next d url r _ =>
        split at h
        · next hhttp =>
          rcases List.mem_cons.mp h with rfl | hmem
          · exact hhttp
          · exact ih r l hmem
        · next => exact ih r l h
      · next => exact ih rest l h

/-- C6.  Link classification on the spec's literal input: the internal
extractor yields the plain wikilink, the aliased wikilink with display
text `Shown`, and the embed (exactly one embed, and exactly one non-embed
whose display text is `Shown`); the external extractor yields exactly the
one `https` link; the tag extractor yields exactly the tag `tag/sub`; and
— in general, for every content — every external link the extractor
classifies has an `http://` or `https://` URL. -/
theorem link_classification :
    extractInternalLinks
        "[[Note]] and [[Note|Shown]] and ![[Img.png]] and [site](https://x.com) and #tag/sub".data =
      [⟨[], "Note".data, "Note".data, false, .internal⟩,
       ⟨[], "Note".data, "Shown".data, false, .internal⟩,
       ⟨[], "Img.png".data, "Img.png".data, true, .internal⟩] ∧
    ((extractInternalLinks
        "[[Note]] and [[Note|Shown]] and ![[Img.png]] and [site](https://x.com) and #tag/sub".data).filter
        (fun l => l.isEmbed)).length = 1 ∧
    ((extractInternalLinks
        "[[Note]] and [[Note|Shown]] and ![[Img.png]] and [site](https://x.com) and #tag/sub".data).filter
        (fun l => !l.isEmbed && l.displayText == "Shown".data)).length = 1 ∧
    extractExternalLinks
        "[[Note]] and [[Note|Shown]] and ![[Img.png]] and [site](https://x.com) and #tag/sub".data =
      [⟨[], "https://x.com".data, "site".data, false, .external⟩] ∧
    extractTagLinks
        "[[Note]] and [[Note|Shown]] and ![[Img.png]] and [site](https://x.com) and #tag/sub".data =
      [mkTagLink "tag/sub".data] ∧
    (∀ (content : Str) (l : NoteLink),
      l ∈ extractExternalLinks content → startsWithHttp l.target = true) := by
  refine ⟨by rfl, by rfl, by rfl, by rfl, by rfl, ?_⟩
  intro content l h
  exact extractExternalLinksF_http content.length content l h

/-- Witness for C6: the general http-only clause applied to the concrete
scan result of the claim's input. -/
theorem link_classification_witness :
    startsWithHttp
      (NoteLink.mk [] "https://x.com".data "site".data false .external).target = true := by
  apply link_classification.2.2.2.2.2
    "[[Note]] and [[Note|Shown]] and ![[Img.png]] and [site](https://x.com) and #tag/sub".data
  rw [link_classification.2.2.2.1]
  exact List.mem_singleton.mpr rfl

/-- The edge-accumulation loop of `get_link_graph_data` is the flat map of
the per-file edge lists, unreadable files contributing nothing. -/
theorem graphEdges_foldl_eq (noteNames : List Str) :
    ∀ (l : List VFile) (init : List GraphEdge),
      l.foldl (fun acc f =>
        match f.content with
        | none => acc
        | some content => acc ++ fileGraphEdges noteNames f content) init =
      init ++ l.flatMap (fun f =>
        match f.content with
        | none => []
        | some content => fileGraphEdges noteNames f content) := by
  intro l
  induction l with
  | nil => intro init; simp
  | cons f rest ih =>
    intro init
    cases hsel : f.content with
    | none => simp [List.foldl_cons, hsel, ih]
    | some c => simp [List.foldl_cons, hsel, ih]

/-- The broken-link accumulation loop of `find_broken_links` is the flat
map of the per-file broken-link lists, unreadable files contributing
nothing. -/
theorem brokenLinks_foldl_eq (index : List Str) (mdFiles : List VFile) :
    ∀ (l : List VFile) (init : List (Str × Str)),
      l.foldl (fun acc f =>
        match f.content with
        | none => acc
        | some content => acc ++ fileBrokenLinks index mdFiles f content) init =
      init ++ l.flatMap (fun f =>
        match f.content with
        | none => []
        | some content => fileBrokenLinks index mdFiles f content) := by
  intro l
  induction l with
  | nil => intro init; simp
  | cons f rest ih =>
    intro init
    cases hsel : f.content with
    | none => simp [List.foldl_cons, hsel, ih]
    | some c => simp [List.foldl_cons, hsel, ih]

/-- Membership in the node-name set of `get_link_graph_data`. -/
theorem mem_graphNoteNames (capped : List VFile) (a : Str) :
    a ∈ graphNoteNames capped ↔ ∃ f ∈ capped, a = lowerStr (stripMdExt f.path) := by
  unfold graphNoteNames
  suffices h : ∀ (l : List VFile) (init : List Str),
      a ∈ l.foldl (fun acc f => listSetAdd acc (lowerStr (stripMdExt f.path))) init ↔
        a ∈ init ∨ ∃ f ∈ l, a = lowerStr (stripMdExt f.path) by
    rw [h capped []]
    simp
  intro l
  induction l with
  | nil => intro init; simp
  | cons x rest ih =>
    intro init
    rw [List.foldl_cons, ih]
    unfold listSetAdd
    by_cases hc : init.contains (lowerStr (stripMdExt x.path))
    · rw [if_pos hc]
      constructor
      · rintro (ha | ⟨y, hy, rfl⟩)
        · exact Or.inl ha
        · exact Or.inr ⟨y, List.mem_cons_of_mem x hy, rfl⟩
      · rintro (ha | ⟨y, hy, rfl⟩)
        · exact Or.inl ha
        · rcases List.mem_cons.mp hy with rfl | hy
          · exact Or.inl (List.mem_of_elem_eq_true hc)
          · exact Or.inr ⟨y, hy, rfl⟩
    · rw [if_neg hc]
      constructor
      · rintro (ha | ⟨y, hy, rfl⟩)
        · rcases List.mem_append.mp ha with ha | ha
          · exact Or.inl ha
          · exact Or.inr ⟨x, List.mem_cons_self _ _, List.mem_singleton.mp ha⟩
        · exact Or.inr ⟨y, List.mem_cons_of_mem x hy, rfl⟩
      · rintro (ha | ⟨y, hy, rfl⟩)
        · exact Or.inl (List.mem_append_left _ ha)
        · rcases List.mem_cons.mp hy with rfl | hy
          · exact Or.inl (List.mem_append_right _ (List.mem_singleton.mpr rfl))
          · exact Or.inr ⟨y, hy, rfl⟩

/-- C9.  Graph-export edge filtering: for every vault snapshot and cap,
every edge of the export arises from a non-embed internal link of a
readable note within the capped file list — embeds never produce edges —
the edge's source is a node id, and its target (case-insensitively)
matches a node id of the capped node set. -/
theorem graph_edges_from_nonembed_links
    (fs : List VFile) (maxNotes : Nat) (report : GraphReport)
    (hrep : getLinkGraphData (.ok fs) maxNotes = .ok report) :
    ∀ e ∈ report.edges,
      (∃ f ∈ (fs.filter isMdFile).take maxNotes, ∃ c, f.content = some c ∧
        ∃ l ∈ extractInternalLinks c, l.isEmbed = false ∧
          e.source = stripMdExt f.path ∧ e.target = targetBase l.target) ∧
      (∃ n ∈ report.nodes, n.id = e.source) ∧
      (∃ n ∈ report.nodes, lowerStr n.id = lowerStr e.target) := by
  intro e he
  have h0 : getLinkGraphData (.ok fs) maxNotes =
      .ok ⟨((fs.filter isMdFile).take maxNotes).map
            (fun f => GraphNode.mk (stripMdExt f.path) (stripMdExt (lastSegment f.path))),
          ((fs.filter isMdFile).take maxNotes).foldl (fun acc f =>
            match f.content with
            | none => acc
            | some content =>
              acc ++ fileGraphEdges (graphNoteNames ((fs.filter isMdFile).take maxNotes)) f content) [],
          (((fs.filter isMdFile).take maxNotes).map
            (fun f => GraphNode.mk (stripMdExt f.path) (stripMdExt (lastSegment f.path)))).length,
          (((fs.filter isMdFile).take maxNotes).foldl (fun acc f =>
            match f.content with
            | none => acc
            | some content =>
              acc ++ fileGraphEdges (graphNoteNames ((fs.filter isMdFile).take maxNotes)) f content) []).length⟩ := rfl
  have hrep' : report =
      ⟨((fs.filter isMdFile).take maxNotes).map
          (fun f => GraphNode.mk (stripMdExt f.path) (stripMdExt (lastSegment f.path))),
        ((fs.filter isMdFile).take maxNotes).foldl (fun acc f =>
          match f.content with
          | none => acc
          | some content =>
            acc ++ fileGraphEdges (graphNoteNames ((fs.filter isMdFile).take maxNotes)) f content) [],
        _, _⟩ := (Except.ok.inj (h0.symm.trans hrep)).symm
  subst hrep'
  simp only at he
  rw [graphEdges_foldl_eq (graphNoteNames ((fs.filter isMdFile).take maxNotes))] at he
  simp only [List.nil_append, List.mem_flatMap] at he
  obtain ⟨f, hf, hef⟩ := he
  cases hcont : f.content with
  | none => rw [hcont] at hef; simp at hef
  | some content =>
    rw [hcont] at hef
    simp only at hef
    unfold fileGraphEdges at hef
    rw [List.mem_filterMap] at hef
    obtain ⟨l, hl, hle⟩ := hef
    by_cases hemb : l.isEmbed
    · rw [if_pos hemb] at hle
      exact Option.noConfusion hle
    · rw [if_neg hemb] at hle
      by_cases hmem :
          (graphNoteNames ((fs.filter isMdFile).take maxNotes)).contains
            (lowerStr (targetBase l.target)) = true
      · rw [if_pos hmem] at hle
        have he' : e = ⟨stripMdExt f.path, targetBase l.target⟩ := (Option.some.inj hle).symm
        subst he'
        refine ⟨⟨f, hf, content, hcont, l, hl, Bool.not_eq_true _ ▸ (by simpa using hemb), rfl, rfl⟩, ?_, ?_⟩
        · exact ⟨⟨stripMdExt f.path, stripMdExt (lastSegment f.path)⟩,
            List.mem_map.mpr ⟨f, hf, rfl⟩, rfl⟩
        · have hmem' := List.mem_of_elem_eq_true hmem
          rw [mem_graphNoteNames] at hmem'
          obtain ⟨f', hf', heq⟩ := hmem'
          exact ⟨⟨stripMdExt f'.path, stripMdExt (lastSegment f'.path)⟩,
              List.mem_map.mpr ⟨f', hf', rfl⟩, heq.symm⟩
      · rw [if_neg hmem] at hle
        exact Option.noConfusion hle

/-- Witness for C9: the invariant applied to a concrete three-note vault
(`A.md` links to `B` and embeds `C`, `C.md` is unreadable): the export has
exactly the edge `A → B`, and the theorem instantiated at that edge places
its source among the node ids. -/
theorem graph_edges_from_nonembed_links_witness :
    ∃ n ∈ (GraphReport.mk
        [⟨"A".data, "A".data⟩, ⟨"B".data, "B".data⟩, ⟨"C".data, "C".data⟩]
        [⟨"A".data, "B".data⟩] 3 1).nodes,
      n.id = (GraphEdge.mk "A".data "B".data).source := by
  have h := graph_edges_from_nonembed_links
    [⟨"A.md".data, false, some "md".data, some "[[B]] and ![[C]]".data⟩,
     ⟨"B.md".data, false, some "md".data, some []⟩,
     ⟨"C.md".data, false, some "md".data, none⟩] 3
    ⟨[⟨"A".data, "A".data⟩, ⟨"B".data, "B".data⟩, ⟨"C".data, "C".data⟩],
     [⟨"A".data, "B".data⟩], 3, 1⟩
    (by rfl) ⟨"A".data, "B".data⟩ (by decide)
  exact h.2.1

set_option maxRecDepth 8000 in
/-- C8.  Broken-link scan degradation: a failing vault enumeration is the
only hard error (first conjunct); on every successful enumeration the
handler returns a report — never a failure — whose `filesChecked` is the
minimum of the markdown-file count and the scan cap 200, and whose broken
links are exactly the flat map of the per-file findings over the first 200
markdown files, where a file whose read fails contributes nothing (it is
skipped) yet still counts toward `filesChecked`.  Concretely (last two
conjuncts): a vault of 250 unreadable notes is capped at
`filesChecked = 200` with an empty but successful report, and in a
two-note vault where `B.md` is unreadable only `B.md` is skipped —
`A.md`'s dangling `[[Nope]]` is still reported and both files count. -/
theorem broken_links_degradation :
    findBrokenLinks (.ok (List.replicate 250 ⟨"X.md".data, false, some "md".data, none⟩)) =
      .ok ⟨200, [], 0⟩ ∧
    findBrokenLinks (.ok [⟨"A.md".data, false, some "md".data, some "[[B]] [[Nope]]".data⟩,
                          ⟨"B.md".data, false, some "md".data, none⟩]) =
      .ok ⟨2, [("A.md".data, "Nope".data)], 1⟩ ∧
    findBrokenLinks (.error ()) = .error () ∧
    ∀ fs : List VFile,
      findBrokenLinks (.ok fs) =
        .ok ⟨min (fs.filter isMdFile).length 200,
          ((fs.filter isMdFile).take 200).flatMap (fun f =>
            match f.content with
            | none => []
            | some content =>
              fileBrokenLinks (existingNotesIndex (fs.filter isMdFile)) (fs.filter isMdFile) f content),
          (((fs.filter isMdFile).take 200).flatMap (fun f =>
            match f.content with
            | none => []
            | some content =>
              fileBrokenLinks (existingNotesIndex (fs.filter isMdFile)) (fs.filter isMdFile) f content)).length⟩ := by
  refine ⟨by rfl, by rfl, by rfl, ?_⟩
  intro fs
  show Except.ok _ = _
  rw [brokenLinks_foldl_eq (existingNotesIndex (fs.filter isMdFile)) (fs.filter isMdFile)
    ((fs.filter isMdFile).take 200) []]
  rw [List.nil_append]

set_option maxRecDepth 8000 in
/-- C7 counterexample: the 30%-rule as stated fails on the code.  For the
input of 63 `a`s, a space, and 60 `b`s with budget 90, the cleaning
pipeline is the identity, the last space of the 90-character truncation is
at index 63, which is NOT strictly within the last 30% of the budget
(`10 * 63 = 7 * 90`), so the claim prescribes a hard truncation at 90 —
but the code, comparing against the binary64 product `90 * 0.7` (which is
strictly below 63), breaks at the word boundary instead. -/
theorem getSummary_thirty_percent_counterexample :
    getSummary (List.replicate 63 'a' ++ ' ' :: List.replicate 60 'b') 90 =
      List.replicate 63 'a' ++ "...".data ∧
    cleanForSummary (List.replicate 63 'a' ++ ' ' :: List.replicate 60 'b') =
      List.replicate 63 'a' ++ ' ' :: List.replicate 60 'b' ∧
    (cleanForSummary (List.replicate 63 'a' ++ ' ' :: List.replicate 60 'b')).length = 124 ∧
    lastIndexOfSpace ((cleanForSummary
      (List.replicate 63 'a' ++ ' ' :: List.replicate 60 'b')).take 90) = 63 ∧
    ¬(10 * 63 > 7 * 90) ∧
    getSummary (List.replicate 63 'a' ++ ' ' :: List.replicate 60 'b') 90 ≠
      (cleanForSummary (List.replicate 63 'a' ++ ' ' :: List.replicate 60 'b')).take 90 ++
        "...".data := by
  exact ⟨by rfl, by rfl, by rfl, by rfl, by decide, by decide⟩

/-- C7 (amended).  For every text and positive budget `N`,
`getSummary text N` is at most `N + 3` characters long; text whose cleaned
form fits in the budget is returned untruncated, and when the cleaned text
exceeds `N` the result appends `...` to either the prefix up to the last
space of the `N`-character truncation — chosen exactly when
`lastSpace > N * 0.7` holds in binary64 arithmetic (`gtJsMul07`) — or to
the hard `N`-character truncation. -/
theorem getSummary_length_bound (content : Str) (maxLength : Nat) (_hpos : 0 < maxLength) :
    (getSummary content maxLength).length ≤ maxLength + 3 ∧
    ((cleanForSummary content).length ≤ maxLength →
      getSummary content maxLength = cleanForSummary content) ∧
    ((cleanForSummary content).length > maxLength →
      getSummary content maxLength =
        (if gtJsMul07 (lastIndexOfSpace ((cleanForSummary content).take maxLength)) maxLength = true
         then ((cleanForSummary content).take maxLength).take
                (lastIndexOfSpace ((cleanForSummary content).take maxLength)).toNat
         else (cleanForSummary content).take maxLength) ++ "...".data) := by
  refine ⟨?_, ?_, ?_⟩
  · unfold getSummary
    by_cases hle : (cleanForSummary content).length ≤ maxLength
    · simp only [hle, if_true]
      omega
    · simp only [hle, if_false]
      have h3 : (['.', '.', '.'] : Str).length = 3 := rfl
      by_cases hgt : gtJsMul07
          (lastIndexOfSpace ((cleanForSummary content).take maxLength)) maxLength = true
      · rw [if_pos hgt]
        rw [List.length_append, List.length_take, List.length_take]
        omega
      · rw [if_neg hgt]
        rw [List.length_append, List.length_take]
        omega
  · intro hle
    unfold getSummary
    simp only [hle, if_true]
  · intro hgt
    unfold getSummary
    have hle : ¬(cleanForSummary content).length ≤ maxLength := by omega
    simp only [hle, if_false]
    by_cases hb : gtJsMul07
        (lastIndexOfSpace ((cleanForSummary content).take maxLength)) maxLength = true
    · rw [if_pos hb, if_pos hb]
    · rw [if_neg hb, if_neg hb]

/-- Witness for C7: the amended theorem applied to a markdown note and
budget 20, where the cleaned text exceeds the budget and the word-boundary
branch fires: the summary is `Some ShownNote text...`, 22 ≤ 23
characters. -/
theorem getSummary_length_bound_witness :
    (getSummary "# Head\nSome [[Note|Shown]] text with more words here".data 20).length ≤ 23 ∧
    getSummary "# Head\nSome [[Note|Shown]] text with more words here".data 20 =
      "Some ShownNote text...".data := by
  constructor
  · exact (getSummary_length_bound
      "# Head\nSome [[Note|Shown]] text with more words here".data 20 (by decide)).1
  · rfl


/-- `delimDashes` consumes a prefix. -/
theorem delimDashes_decomp (s d r : Str) (h : delimDashes s = some (d, r)) :
    s = d ++ r := by
  rw [delimDashes.eq_def] at h
  split at h
  · next heq =>
    simp only [Option.some.injEq, Prod.mk.injEq] at h
    obtain ⟨rfl, rfl⟩ := h
    rfl
  · next heq =>
    simp only [Option.some.injEq, Prod.mk.injEq] at h
    obtain ⟨rfl, rfl⟩ := h
    rfl
  · exact Option.noConfusion h

/-- `delimTail` splits its input. -/
theorem delimTail_decomp (r : Str) : (delimTail r).1 ++ (delimTail r).2 = r := by
  rw [delimTail.eq_def]
  split <;> rfl

/-- `delimConsume` consumes a prefix. -/
theorem delimConsume_decomp (s d r : Str) (h : delimConsume s = some (d, r)) :
    s = d ++ r := by
  unfold delimConsume at h
  cases hd : delimDashes s with
  | none => rw [hd] at h; exact Option.noConfusion h
  | some p =>
    obtain ⟨d0, r0⟩ := p
    rw [hd] at h
    simp only [Option.some.injEq, Prod.mk.injEq] at h
    obtain ⟨rfl, rfl⟩ := h
    rw [delimDashes_decomp s d0 r0 hd, List.append_assoc, delimTail_decomp]

/-- `findClose` splits its input into group, delimiter and rest. -/
theorem findClose_decomp :
    ∀ (s g d r : Str), findClose s = some (g, d, r) → s = g ++ d ++ r := by
  intro s
  induction s with
  | nil => intro g d r h; exact Option.noConfusion h
  | cons c cs ih =>
    intro g d r h
    unfold findClose at h
    cases hdc : delimConsume (c :: cs) with
    | some p =>
      obtain ⟨d0, r0⟩ := p
      rw [hdc] at h
      simp only [Option.some.injEq, Prod.mk.injEq] at h
      obtain ⟨rfl, rfl, rfl⟩ := h
      simpa using delimConsume_decomp _ _ _ hdc
    | none =>
      rw [hdc] at h
      cases hfc : findClose cs with
      | some p2 =>
        obtain ⟨g2, d2, r2⟩ := p2
        rw [hfc] at h
        simp only [Option.some.injEq, Prod.mk.injEq] at h
        obtain ⟨rfl, rfl, rfl⟩ := h
        have := ih g2 d2 r2 hfc
        simp [this]
      | none => rw [hfc] at h; exact Option.noConfusion h

/-- `fmLead` consumes a prefix. -/
theorem fmLead_decomp (s l r : Str) (h : fmLead s = some (l, r)) : s = l ++ r := by
  rw [fmLead.eq_def] at h
  split at h
  · next heq =>
    simp only [Option.some.injEq, Prod.mk.injEq] at h
    obtain ⟨rfl, rfl⟩ := h
    rfl
  · next heq =>
    simp only [Option.some.injEq, Prod.mk.injEq] at h
    obtain ⟨rfl, rfl⟩ := h
    rfl
  · exact Option.noConfusion h

/-- A matched frontmatter block and the returned rest reassemble the
input: `body` is exactly `content` minus `raw`. -/
theorem frontmatterMatch_decomp (content : Str) (m : FMMatch)
    (h : frontmatterMatch content = some m) : content = m.raw ++ m.rest := by
  unfold frontmatterMatch at h
  cases hl : fmLead content with
  | none => rw [hl] at h; exact Option.noConfusion h
  | some p =>
    obtain ⟨l, r1⟩ := p
    rw [hl] at h
    dsimp only at h
    cases hfc : findClose r1 with
    | none => rw [hfc] at h; exact Option.noConfusion h
    | some p2 =>
      obtain ⟨g, d, rest⟩ := p2
      rw [hfc] at h
      simp only [Option.some.injEq] at h
      subst h
      have h1 := fmLead_decomp content l r1 hl
      have h2 := findClose_decomp r1 g d rest hfc
      simp only [h1, h2]
      simp

/-- The raw block a successful match returns is never empty (its lead
alone has four or five characters). -/
theorem frontmatterMatch_raw_ne (content : Str) (m : FMMatch)
    (h : frontmatterMatch content = some m) : m.raw ≠ [] := by
  unfold frontmatterMatch at h
  cases hl : fmLead content with
  | none => rw [hl] at h; exact Option.noConfusion h
  | some p =>
    obtain ⟨l, r1⟩ := p
    rw [hl] at h
    dsimp only at h
    cases hfc : findClose r1 with
    | none => rw [hfc] at h; exact Option.noConfusion h
    | some p2 =>
      obtain ⟨g, d, rest⟩ := p2
      rw [hfc] at h
      simp only [Option.some.injEq] at h
      subst h
      have hlne : l ≠ [] := by
        rw [fmLead.eq_def] at hl
        split at hl <;>
          first
          | (simp only [Option.some.injEq, Prod.mk.injEq] at hl
             obtain ⟨rfl, _⟩ := hl
             simp)
          | exact Option.noConfusion hl
      simp only [ne_eq, List.append_eq_nil]
      intro hc
      exact hlne hc.1.1

/-- Does the string contain a closing delimiter (`\r?\n---`) anywhere? -/
def hasCloseDelim : Str → Bool
  | [] => false
  | c :: cs => (delimConsume (c :: cs)).isSome || hasCloseDelim cs

/-- The structural condition under which `FRONTMATTER_REGEX` matches: the
input opens at byte 0 with a `---` line (`---\r?\n`) and the remainder
contains a closing `\r?\n---` somewhere. -/
def delimShapeB (content : Str) : Bool :=
  match fmLead content with
  | some (_, r1) => hasCloseDelim r1
  | none => false

/-- The scan for the closing delimiter succeeds exactly when one occurs. -/
theorem findClose_isSome : ∀ s : Str, (findClose s).isSome = hasCloseDelim s := by
  intro s
  induction s with
  | nil => rfl
  | cons c cs ih =>
    unfold findClose hasCloseDelim
    cases hdc : delimConsume (c :: cs) with
    | some p => rfl
    | none =>
      simp only [Option.isSome_none, Bool.false_or]
      cases hfc : findClose cs with
      | some p2 =>
        obtain ⟨g, d, r⟩ := p2
        rw [hfc] at ih
        simp at ih
        simp [← ih]
      | none =>
        rw [hfc] at ih
        simp at ih
        simp [← ih]

/-- `FRONTMATTER_REGEX` matches exactly on inputs of the delimited
shape. -/
theorem frontmatterMatch_isSome (content : Str) :
    (frontmatterMatch content).isSome = delimShapeB content := by
  unfold frontmatterMatch delimShapeB
  cases hl : fmLead content with
  | none => rfl
  | some p =>
    obtain ⟨l, r1⟩ := p
    dsimp only
    rw [← findClose_isSome r1]
    cases hfc : findClose r1 with
    | none => rfl
    | some p2 => obtain ⟨g, d, r⟩ := p2; rfl

/-- C5 (amended).  `parseFrontmatter` is total and never corrupts the
input: `raw ++ body = content` always (first conjunct).  It recognizes a
metadata block only when the input starts at byte 0 with a `---` delimiter
line and a closing `\r?\n---` follows — everything else returns empty
frontmatter with the entire input as the body (second conjunct), and every
such delimited input is recognized, with a nonempty raw block and the
frontmatter parsed from the captured group (third conjunct).  A malformed
line inside the block is not a failure of the whole parse: the line loop
skips individually every line that is blank or matches neither the array
item nor the `key: value` pattern, leaving its state untouched (fourth
conjunct); the catch-all fallback of the source is unreachable because
`parseYaml` never throws. -/
theorem parseFrontmatter_block_recognition :
    (∀ content : Str,
      (parseFrontmatter content).raw ++ (parseFrontmatter content).body = content) ∧
    (∀ content : Str, delimShapeB content = false →
      parseFrontmatter content = ⟨[], content, []⟩) ∧
    (∀ content : Str, delimShapeB content = true →
      ∃ m, frontmatterMatch content = some m ∧
        parseFrontmatter content = ⟨parseYaml m.group, m.rest, m.raw⟩ ∧ m.raw ≠ []) ∧
    (∀ (st : PYState) (line : Str),
      trimStr line = [] ∨ (matchArrayItemPfx line = false ∧ keyMatch line = none) →
      parseYamlStep st line = st) := by
  refine ⟨?_, ?_, ?_, ?_⟩
  · intro content
    unfold parseFrontmatter
    cases hm : frontmatterMatch content with
    | none => rfl
    | some m => exact (frontmatterMatch_decomp content m hm).symm
  · intro content hshape
    unfold parseFrontmatter
    cases hm : frontmatterMatch content with
    | none => rfl
    | some m =>
      have := frontmatterMatch_isSome content
      rw [hm, hshape] at this
      exact absurd this (by simp)
  · intro content hshape
    cases hm : frontmatterMatch content with
    | none =>
      have := frontmatterMatch_isSome content
      rw [hm, hshape] at this
      exact absurd this (by simp)
    | some m =>
      refine ⟨m, rfl, ?_, frontmatterMatch_raw_ne content m hm⟩
      unfold parseFrontmatter
      rw [hm]
  · intro st line h
    unfold parseYamlStep
    by_cases htrim : trimStr line = []
    · rw [if_pos htrim]
    · rw [if_neg htrim]
      rcases h with h | ⟨h1, h2⟩
      · exact absurd h htrim
      · rw [h1]
        simp only [Bool.false_eq_true, if_false, h2]

/-- Witness for C5: an input with no delimiter comes back whole with empty
frontmatter, and the loop state survives a malformed line unchanged. -/
theorem parseFrontmatter_block_recognition_witness :
    parseFrontmatter "hello world".data = ⟨[], "hello world".data, []⟩ ∧
    parseYamlStep ⟨[], [], none⟩ "???bad".data = ⟨[], [], none⟩ := by
  constructor
  · exact parseFrontmatter_block_recognition.2.1 "hello world".data (by decide)
  · exact parseFrontmatter_block_recognition.2.2.2 ⟨[], [], none⟩ "???bad".data
      (Or.inr ⟨by decide, by decide⟩)

/-- C5 counterexample: the claim's malformed-line clause fails on the
code.  A block with a proper pair of delimiters but one malformed line
(`???bad`) does NOT degrade to empty frontmatter with the whole input as
body: the malformed line alone is skipped, the other key survives and the
body is the text after the block.  Moreover the closing `---` need not be
a line of its own: `---tail` closes the block of the second input. -/
theorem parseFrontmatter_malformed_counterexample :
    (parseFrontmatter "---\ntitle: 1\n???bad\n---\nrest".data).frontmatter =
      [("title".data, Yaml.int 1)] ∧
    (parseFrontmatter "---\ntitle: 1\n???bad\n---\nrest".data).frontmatter ≠ [] ∧
    (parseFrontmatter "---\ntitle: 1\n???bad\n---\nrest".data).body = "rest".data ∧
    (parseFrontmatter "---\ntitle: 1\n???bad\n---\nrest".data).body ≠
      "---\ntitle: 1\n???bad\n---\nrest".data ∧
    (parseFrontmatter "---\na: 1\n---tail".data).raw = "---\na: 1\n---".data ∧
    (parseFrontmatter "---\na: 1\n---tail".data).body = "tail".data := by
  refine ⟨by rfl, ?_, by rfl, by decide, by rfl, by rfl⟩
  rw [show (parseFrontmatter "---\ntitle: 1\n???bad\n---\nrest".data).frontmatter =
    [("title".data, Yaml.int 1)] from rfl]
  exact List.cons_ne_nil _ _

/-- `tagAfterHash` consumes at least the letter: the rest is shorter than
the input. -/
theorem tagAfterHash_length (t tg r2 : Str) (h : tagAfterHash t = some (tg, r2)) :
    r2.length < t.length := by
  cases t with
  | nil => exact Option.noConfusion h
  | cons c r =>
    unfold tagAfterHash at h
    dsimp only at h
    by_cases ha : isAlphaC c = true
    · rw [if_pos ha] at h
      simp only [Option.some.injEq, Prod.mk.injEq] at h
      obtain ⟨rfl, rfl⟩ := h
      have : (r.drop (r.takeWhile isTagC).length).length ≤ r.length := by
        rw [List.length_drop]
        omega
      simp only [List.length_cons]
      omega
    · rw [if_neg ha] at h
      exact Option.noConfusion h



/-- Inversion of a successful `tagAfterHash`: the tag is the letter plus
the maximal tag-character run, the rest follows it. -/
theorem tagAfterHash_inv (t tg r2 : Str) (h : tagAfterHash t = some (tg, r2)) :
    ∃ c r, t = c :: r ∧ isAlphaC c = true ∧ tg = c :: r.takeWhile isTagC ∧
      r2 = r.drop (r.takeWhile isTagC).length := by
  cases t with
  | nil => exact Option.noConfusion h
  | cons c r =>
    unfold tagAfterHash at h
    dsimp only at h
    by_cases ha : isAlphaC c = true
    · rw [if_pos ha] at h
      simp only [Option.some.injEq, Prod.mk.injEq] at h
      exact ⟨c, r, rfl, ha, h.1.symm, h.2.symm⟩
    · rw [if_neg ha] at h
      exact Option.noConfusion h

/-- Inversion of `tagGuardStep`: an `emit` requires a non-word guard, a
hash and a matched tag. -/
theorem tagGuardStep_emit_inv (c0 : Char) (rest tg r2 : Str)
    (h : tagGuardStep c0 rest = .emit tg r2) :
    isWordC c0 = false ∧ ∃ r1, rest = '#' :: r1 ∧ tagAfterHash r1 = some (tg, r2) := by
  unfold tagGuardStep at h
  by_cases hw : isWordC c0 = true
  · rw [if_pos hw] at h
    exact TagStep.noConfusion h
  · rw [if_neg hw] at h
    split at h
    · next r1 =>
      cases hth : tagAfterHash r1 with
      | some p =>
        obtain ⟨tg2, r22⟩ := p
        rw [hth] at h
        dsimp only at h
        simp only [TagStep.emit.injEq] at h
        obtain ⟨rfl, rfl⟩ := h
        exact ⟨Bool.eq_false_iff.mpr hw, r1, rfl, hth⟩
      | none =>
        rw [hth] at h
        exact TagStep.noConfusion h
    · next => exact TagStep.noConfusion h

/-- The rest after an emitted guard match is shorter than the guarded
input. -/
theorem tagGuardStep_emit_length (c0 : Char) (rest tg r2 : Str)
    (h : tagGuardStep c0 rest = .emit tg r2) : r2.length < rest.length := by
  obtain ⟨_, r1, rfl, hth⟩ := tagGuardStep_emit_inv c0 rest tg r2 h
  have := tagAfterHash_length r1 tg r2 hth
  simp only [List.length_cons]
  omega

/-- The fuel of the tag-link scan is irrelevant once it dominates the
input length. -/
theorem extractTagLinksF_stable :
    ∀ (f1 f2 : Nat) (flag : Bool) (u : Str), u.length ≤ f1 → u.length ≤ f2 →
      extractTagLinksF f1 flag u = extractTagLinksF f2 flag u := by
  intro f1
  induction f1 with
  | zero =>
    intro f2 flag u h1 _
    have : u = [] := List.length_eq_zero.mp (Nat.le_zero.mp h1)
    subst this
    cases f2 <;> rfl
  | succ f1 ih =>
    intro f2 flag u h1 h2
    cases u with
    | nil => cases f2 <;> rfl
    | cons c0 rest =>
      cases f2 with
      | zero => exact absurd h2 (by simp)
      | succ f2 =>
        simp only [extractTagLinksF]
        have hr1 : rest.length ≤ f1 := by
          simp only [List.length_cons] at h1
          omega
        have hr2 : rest.length ≤ f2 := by
          simp only [List.length_cons] at h2
          omega
        by_cases hflag : (flag && c0 == '#') = true
        · rw [hflag]
          simp only [if_true]
          cases hth : tagAfterHash rest with
          | some p =>
            obtain ⟨tg, r2⟩ := p
            dsimp only
            have hlen := tagAfterHash_length rest tg r2 hth
            rw [ih f2 false r2 (by omega) (by omega)]
          | none =>
            dsimp only
            cases hg : tagGuardStep c0 rest with
            | emit tg r2 =>
              dsimp only
              have hlen := tagGuardStep_emit_length c0 rest tg r2 hg
              rw [ih f2 false r2 (by omega) (by omega)]
            | advance =>
              dsimp only
              rw [ih f2 false rest hr1 hr2]
        · simp only [hflag]
          simp only [Bool.false_eq_true, if_false]
          cases hg : tagGuardStep c0 rest with
          | emit tg r2 =>
            dsimp only
            have hlen := tagGuardStep_emit_length c0 rest tg r2 hg
            rw [ih f2 false r2 (by omega) (by omega)]
          | advance =>
            dsimp only
            rw [ih f2 false rest hr1 hr2]

/-- The fuel of the inline tag scan of `getAllTags` is irrelevant once it
dominates the input length. -/
theorem inlineTagScanF_stable :
    ∀ (f1 f2 : Nat) (u : Str), u.length ≤ f1 → u.length ≤ f2 →
      inlineTagScanF f1 u = inlineTagScanF f2 u := by
  intro f1
  induction f1 with
  | zero =>
    intro f2 u h1 _
    have : u = [] := List.length_eq_zero.mp (Nat.le_zero.mp h1)
    subst this
    cases f2 <;> rfl
  | succ f1 ih =>
    intro f2 u h1 h2
    cases u with
    | nil => cases f2 <;> rfl
    | cons c0 rest =>
      cases f2 with
      | zero => exact absurd h2 (by simp)
      | succ f2 =>
        simp only [inlineTagScanF]
        have hr1 : rest.length ≤ f1 := by
          simp only [List.length_cons] at h1
          omega
        have hr2 : rest.length ≤ f2 := by
          simp only [List.length_cons] at h2
          omega
        by_cases hc : (c0 == '#') = true
        · rw [hc]
          simp only [if_true]
          cases hth : tagAfterHash rest with
          | some p =>
            obtain ⟨tg, r2⟩ := p
            dsimp only
            have hlen := tagAfterHash_length rest tg r2 hth
            rw [ih f2 r2 (by omega) (by omega)]
          | none =>
            dsimp only
            rw [ih f2 rest hr1 hr2]
        · simp only [hc]
          simp only [Bool.false_eq_true, if_false]
          rw [ih f2 rest hr1 hr2]

/-- The agreement hypothesis for the two tag scans: no `#` in the string
is immediately preceded by a tag character (letters, digits, underscore,
slash, hyphen; a superset of the word characters). -/
def noTagCharBeforeHash : Str → Bool
  | a :: b :: rest => (!(b == '#') || !isTagC a) && noTagCharBeforeHash (b :: rest)
  | _ => true

/-- Does the string start with `#` followed by a letter (the shape both
scanners match at the current position)? -/
def startsHashLetter : Str → Bool
  | a :: b :: _ => a == '#' && isAlphaC b
  | _ => false

/-- Letters are tag characters. -/
theorem isTagC_of_alpha (c : Char) (h : isAlphaC c = true) : isTagC c = true := by
  unfold isTagC
  rw [h]
  rfl

/-- Word characters are tag characters. -/
theorem isTagC_of_word (c : Char) (h : isWordC c = true) : isTagC c = true := by
  unfold isWordC at h
  unfold isTagC
  rcases Bool.or_eq_true .. |>.mp h with h' | h'
  · rcases Bool.or_eq_true .. |>.mp h' with h'' | h'' <;> simp [h'']
  · simp [h']

/-- The hypothesis is closed under tails. -/
theorem noTag_tail (a : Char) (t : Str) (h : noTagCharBeforeHash (a :: t) = true) :
    noTagCharBeforeHash t = true := by
  cases t with
  | nil => rfl
  | cons b r =>
    unfold noTagCharBeforeHash at h
    simp only [Bool.and_eq_true] at h
    exact h.2

/-- The hypothesis is closed under dropping a prefix. -/
theorem noTag_drop : ∀ (k : Nat) (t : Str), noTagCharBeforeHash t = true →
    noTagCharBeforeHash (t.drop k) = true := by
  intro k
  induction k with
  | zero => intro t h; simpa using h
  | succ k ih =>
    intro t h
    cases t with
    | nil => simpa using h
    | cons a r =>
      rw [List.drop_succ_cons]
      exact ih r (noTag_tail a r h)

/-- Under the hypothesis, nothing following a tag character starts a
`#letter` match. -/
theorem noTag_hash_pair (a : Char) (t : Str) (hn : noTagCharBeforeHash (a :: t) = true)
    (ha : isTagC a = true) : startsHashLetter t = false := by
  cases t with
  | nil => rfl
  | cons b w =>
    have hpair : (!(b == '#') || !isTagC a) = true := by
      unfold noTagCharBeforeHash at hn
      simp only [Bool.and_eq_true] at hn
      exact hn.1
    cases w with
    | nil => rfl
    | cons c w2 =>
      by_cases hb : b = '#'
      · subst hb
        simp [ha] at hpair
      · unfold startsHashLetter
        simp [hb]

/-- After consuming a maximal run of tag characters that started with a
tag character, the remainder cannot start a `#letter` match (its first
character would be `#` directly after a tag character). -/
theorem afterTagRun_noHash : ∀ (w : Str) (x : Char), isTagC x = true →
    noTagCharBeforeHash (x :: w) = true →
    startsHashLetter (w.drop (w.takeWhile isTagC).length) = false := by
  intro w
  induction w with
  | nil => intro x _ _; rfl
  | cons b w2 ih =>
    intro x hx hn
    by_cases hb : isTagC b = true
    · rw [List.takeWhile_cons_of_pos hb]
      simp only [List.length_cons, List.drop_succ_cons]
      exact ih b hb (noTag_tail x (b :: w2) hn)
    · rw [List.takeWhile_cons_of_neg hb]
      simp only [List.length_nil, List.drop_zero]
      exact noTag_hash_pair x (b :: w2) hn hx

/-- An `advance` of the guard step with a non-word guard means the rest
does not start a `#letter` match. -/
theorem tagGuard_advance_shl (c0 : Char) (rest : Str) (hw : isWordC c0 = false)
    (hg : tagGuardStep c0 rest = .advance) : startsHashLetter rest = false := by
  cases rest with
  | nil => rfl
  | cons c1 r1 =>
    cases r1 with
    | nil => rfl
    | cons c2 r2 =>
      by_cases hc1 : c1 = '#'
      · subst hc1
        cases hca : isAlphaC c2 with
        | false => unfold startsHashLetter; dsimp only; rw [hca]; simp
        | true =>
          exfalso
          have hsome : tagAfterHash (c2 :: r2) =
              some (c2 :: r2.takeWhile isTagC, r2.drop (r2.takeWhile isTagC).length) := by
            unfold tagAfterHash
            dsimp only
            rw [if_pos hca]
          unfold tagGuardStep at hg
          rw [if_neg (by simp [hw])] at hg
          split at hg
          · next r1 heq =>
            obtain ⟨-, hr1⟩ := List.cons.inj heq
            subst hr1
            rw [hsome] at hg
            exact TagStep.noConfusion hg
          · next hne =>
            exact hne (c2 :: r2) rfl
      · unfold startsHashLetter
        simp [hc1]

/-- If the input does not start a `#letter` match right after a `#`, the
capture after that `#` fails. -/
theorem shl_tagAfterHash_none (rest : Str) (h : startsHashLetter ('#' :: rest) = false) :
    tagAfterHash rest = none := by
  cases rest with
  | nil => rfl
  | cons c l =>
    unfold startsHashLetter at h
    simp only [beq_self_eq_true, Bool.true_and] at h
    unfold tagAfterHash
    dsimp only
    rw [if_neg (by simp [h])]

/-- The target of a tag link is the captured tag. -/
theorem mkTagLink_target (tg : Str) : (mkTagLink tg).target = tg := rfl

/-- Inline scan step: a `#` whose capture succeeds emits the tag. -/
theorem inlineTagScanF_hash_some (f : Nat) (r1 tg r2 : Str)
    (h : tagAfterHash r1 = some (tg, r2)) :
    inlineTagScanF (f + 1) ('#' :: r1) = tg :: inlineTagScanF f r2 := by
  simp only [inlineTagScanF]
  rw [if_pos (show (('#' : Char) == '#') = true from rfl), h]

/-- Inline scan step: a `#` whose capture fails advances one character. -/
theorem inlineTagScanF_hash_none (f : Nat) (r1 : Str)
    (h : tagAfterHash r1 = none) :
    inlineTagScanF (f + 1) ('#' :: r1) = inlineTagScanF f r1 := by
  simp only [inlineTagScanF]
  rw [if_pos (show (('#' : Char) == '#') = true from rfl), h]

/-- Inline scan step: a non-`#` character advances. -/
theorem inlineTagScanF_nonhash (f : Nat) (c0 : Char) (rest : Str)
    (h : (c0 == '#') = false) :
    inlineTagScanF (f + 1) (c0 :: rest) = inlineTagScanF f rest := by
  simp only [inlineTagScanF]
  rw [if_neg (by simp [h])]

/-- Common IH side conditions after a successful capture. -/
theorem tagMatch_ih_side (r1 tg r2 : Str) (hth1 : tagAfterHash r1 = some (tg, r2))
    (hn1 : noTagCharBeforeHash r1 = true) :
    noTagCharBeforeHash r2 = true ∧ startsHashLetter r2 = false := by
  obtain ⟨c, r, hrest, hca, -, hr2⟩ := tagAfterHash_inv r1 tg r2 hth1
  subst hrest
  constructor
  · rw [hr2]
    exact noTag_drop _ r (noTag_tail c r hn1)
  · rw [hr2]
    exact afterTagRun_noHash r c (isTagC_of_alpha c hca) hn1

/-- Agreement of the two tag scans (with the guard hypothesis), by strong
induction on a length bound. -/
theorem tagScan_agreeAux :
    ∀ (n : Nat) (u : Str), u.length ≤ n → noTagCharBeforeHash u = true →
      ∀ flag : Bool, (flag = false → startsHashLetter u = false) →
      (extractTagLinksF u.length flag u).map (fun l => l.target)
        = inlineTagScanF u.length u := by
  intro n
  induction n with
  | zero =>
    intro u h1 _ flag _
    have hu : u = [] := List.length_eq_zero.mp (Nat.le_zero.mp h1)
    subst hu
    rfl
  | succ n ih =>
    intro u hlen hnt flag hflag
    cases u with
    | nil => rfl
    | cons c0 rest =>
      have hrn : rest.length ≤ n := by
        simp only [List.length_cons] at hlen
        omega
      have hntr : noTagCharBeforeHash rest = true := noTag_tail c0 rest hnt
      simp only [List.length_cons, extractTagLinksF]
      by_cases hfc : (flag && (c0 == '#')) = true
      · have hch : (c0 == '#') = true := by
          simp only [Bool.and_eq_true] at hfc
          exact hfc.2
        have hc0 : c0 = '#' := eq_of_beq hch
        subst hc0
        rw [if_pos hfc]
        cases hth : tagAfterHash rest with
        | some p =>
          obtain ⟨tg, r2⟩ := p
          dsimp only
          simp only [List.map_cons, mkTagLink_target]
          have hr2len : r2.length < rest.length := tagAfterHash_length rest tg r2 hth
          rw [inlineTagScanF_hash_some rest.length rest tg r2 hth]
          rw [extractTagLinksF_stable rest.length r2.length false r2 (by omega) (le_refl _)]
          rw [inlineTagScanF_stable rest.length r2.length r2 (by omega) (le_refl _)]
          obtain ⟨hnt2, hshl2⟩ := tagMatch_ih_side rest tg r2 hth hntr
          exact congrArg (List.cons tg) (ih r2 (by omega) hnt2 false (fun _ => hshl2))
        | none =>
          dsimp only
          rw [inlineTagScanF_hash_none rest.length rest hth]
          cases hg : tagGuardStep '#' rest with
          | emit tg r2 =>
            dsimp only
            simp only [List.map_cons, mkTagLink_target]
            obtain ⟨hw, r1, hrest, hth1⟩ := tagGuardStep_emit_inv '#' rest tg r2 hg
            subst hrest
            have hr2len : r2.length < r1.length := tagAfterHash_length r1 tg r2 hth1
            simp only [List.length_cons]
            rw [inlineTagScanF_hash_some r1.length r1 tg r2 hth1]
            rw [extractTagLinksF_stable (r1.length + 1) r2.length false r2 (by omega)
              (le_refl _)]
            rw [inlineTagScanF_stable r1.length r2.length r2 (by omega) (le_refl _)]
            obtain ⟨hnt2, hshl2⟩ :=
              tagMatch_ih_side r1 tg r2 hth1 (noTag_tail '#' r1 hntr)
            exact congrArg (List.cons tg) (ih r2
              (by simp only [List.length_cons] at hrn; omega) hnt2 false (fun _ => hshl2))
          | advance =>
            dsimp only
            have hshl : startsHashLetter rest = false :=
              tagGuard_advance_shl '#' rest (by decide) hg
            exact ih rest hrn hntr false (fun _ => hshl)
      · rw [if_neg hfc]
        cases hg : tagGuardStep c0 rest with
        | emit tg r2 =>
          dsimp only
          simp only [List.map_cons, mkTagLink_target]
          obtain ⟨hw, r1, hrest, hth1⟩ := tagGuardStep_emit_inv c0 rest tg r2 hg
          subst hrest
          have hr2len : r2.length < r1.length := tagAfterHash_length r1 tg r2 hth1
          simp only [List.length_cons]
          have hrhs : inlineTagScanF (r1.length + 1 + 1) (c0 :: '#' :: r1)
              = tg :: inlineTagScanF r1.length r2 := by
            by_cases hch : (c0 == '#') = true
            · have hc0 : c0 = '#' := eq_of_beq hch
              subst hc0
              rw [inlineTagScanF_hash_none (r1.length + 1) ('#' :: r1) (by
                unfold tagAfterHash
                dsimp only
                rw [if_neg (by decide)])]
              exact inlineTagScanF_hash_some r1.length r1 tg r2 hth1
            · rw [inlineTagScanF_nonhash (r1.length + 1) c0 ('#' :: r1)
                (Bool.eq_false_iff.mpr hch)]
              exact inlineTagScanF_hash_some r1.length r1 tg r2 hth1
          rw [hrhs]
          rw [extractTagLinksF_stable (r1.length + 1) r2.length false r2 (by omega)
            (le_refl _)]
          rw [inlineTagScanF_stable r1.length r2.length r2 (by omega) (le_refl _)]
          obtain ⟨hnt2, hshl2⟩ :=
            tagMatch_ih_side r1 tg r2 hth1 (noTag_tail '#' r1 hntr)
          exact congrArg (List.cons tg) (ih r2
            (by simp only [List.length_cons] at hrn; omega) hnt2 false (fun _ => hshl2))
        | advance =>
          dsimp only
          by_cases hch : (c0 == '#') = true
          · have hc0 : c0 = '#' := eq_of_beq hch
            subst hc0
            have hfl : flag = false := by
              cases flag with
              | false => rfl
              | true => exact absurd rfl hfc
            have hshl0 : startsHashLetter ('#' :: rest) = false := hflag hfl
            rw [inlineTagScanF_hash_none rest.length rest
              (shl_tagAfterHash_none rest hshl0)]
            have hshl : startsHashLetter rest = false :=
              tagGuard_advance_shl '#' rest (by decide) hg
            exact ih rest hrn hntr false (fun _ => hshl)
          · rw [inlineTagScanF_nonhash rest.length c0 rest (Bool.eq_false_iff.mpr hch)]
            have hshl : startsHashLetter rest = false := by
              by_cases hw : isWordC c0 = true
              · exact noTag_hash_pair c0 rest hnt (isTagC_of_word c0 hw)
              · exact tagGuard_advance_shl c0 rest (Bool.eq_false_iff.mpr hw) hg
            exact ih rest hrn hntr false (fun _ => hshl)

/-- C4 counterexample: `getAllTags` does NOT follow the extractor's tag
rule.  In the body `foo#bar` the `#` is immediately preceded by the word
character `o`, so the Structure Extractor finds no tag, yet `getAllTags`
returns `bar` — its inline regex has no guard on the preceding
character. -/
theorem getAllTags_guard_counterexample :
    getAllTags ("foo#bar".data) = [Yaml.str ("bar".data)] ∧
    (extractTagLinks (parseFrontmatter ("foo#bar".data)).body).map
      (fun l => l.target) = [] := by
  constructor
  · rfl
  · rfl

/-- C4.  Amended agreement: whenever no `#` in the body is immediately
preceded by a tag character (letter, digit, underscore, slash or hyphen
— word characters among them, so inputs like `foo#bar`, and also
`#a/#b` where the guard would be consumed, are excluded), `getAllTags`
returns exactly the deduplicated union of the frontmatter `tags` array
and the tags of the extractor's tag links on the body, in that order. -/
theorem getAllTags_extractor_agreement (content : Str)
    (h : noTagCharBeforeHash (parseFrontmatter content).body = true) :
    getAllTags content =
      jsDedup (frontmatterTags (parseFrontmatter content).frontmatter ++
        ((extractTagLinks (parseFrontmatter content).body).map
          (fun l => Yaml.str l.target))) := by
  have hag := tagScan_agreeAux (parseFrontmatter content).body.length
    (parseFrontmatter content).body (le_refl _) h true (fun hc => Bool.noConfusion hc)
  simp only [getAllTags, inlineTagScan, extractTagLinks]
  rw [show ((extractTagLinksF (parseFrontmatter content).body.length true
        (parseFrontmatter content).body).map (fun l => Yaml.str l.target))
      = ((extractTagLinksF (parseFrontmatter content).body.length true
        (parseFrontmatter content).body).map (fun l => l.target)).map Yaml.str from by
    rw [List.map_map]
    rfl]
  rw [hag]

/-- Witness for C4: the amended agreement applied to a concrete note with
one frontmatter tag and one inline tag. -/
theorem getAllTags_extractor_agreement_witness :
    noTagCharBeforeHash (parseFrontmatter ("---\ntags: [x]\n---\nhi #y".data)).body
      = true ∧
    getAllTags ("---\ntags: [x]\n---\nhi #y".data) =
      jsDedup (frontmatterTags
          (parseFrontmatter ("---\ntags: [x]\n---\nhi #y".data)).frontmatter ++
        ((extractTagLinks (parseFrontmatter ("---\ntags: [x]\n---\nhi #y".data)).body).map
          (fun l => Yaml.str l.target))) :=
  ⟨by rfl, getAllTags_extractor_agreement ("---\ntags: [x]\n---\nhi #y".data) (by rfl)⟩

/-!
## Round-trip hypotheses and key lemmas (C1)
-/

/-- Scalar equality implies equality. -/
theorem yamlScalarBeq_eq (a b : Yaml) (h : yamlScalarBeq a b = true) : a = b := by
  cases a <;> cases b <;> simp only [yamlScalarBeq] at h <;> try exact Bool.noConfusion h
  · exact congrArg Yaml.str (eq_of_beq h)
  · exact congrArg Yaml.int (eq_of_beq h)
  · exact congrArg Yaml.float (eq_of_beq h)
  · exact congrArg Yaml.bool (eq_of_beq h)
  · rfl

/-- A key of the shape the key regex accepts in full:
an identifier-start character followed by identifier-rest characters. -/
def isIdentKey : Str → Bool
  | c :: r => isIdentStart c && r.all isIdentRest
  | [] => false

/-- All keys of the record are distinct. -/
def distinctKeysB : List (Str × Yaml) → Bool
  | [] => true
  | p :: r => !(r.any (fun q => q.1 == p.1)) && distinctKeysB r

/-- A scalar value that survives the round trip: not an array, its
serialized token is nonempty, trim-stable, free of newlines and carriage
returns, and `parseYamlValue` coerces the token back to the value. -/
def goodScalar (v : Yaml) : Bool :=
  !v.isArr &&
  !(stringifyYamlValue v).isEmpty &&
  (trimStr (stringifyYamlValue v) == stringifyYamlValue v) &&
  (stringifyYamlValue v).all (fun c => !(c == '\n') && !(c == '\r')) &&
  yamlScalarBeq (parseYamlValue (stringifyYamlValue v)) v

/-- A round-trippable value: a good scalar, or a (flat) array of good
scalars. -/
def goodValue : Yaml → Bool
  | .arr xs => xs.all goodScalar
  | v => goodScalar v

/-- The full round-trip hypothesis on a frontmatter record. -/
def goodFM (fm : List (Str × Yaml)) : Bool :=
  !fm.isEmpty && fm.all (fun p => isIdentKey p.1 && goodValue p.2) && distinctKeysB fm

/-- An identifier-start character is none of the special characters the
proof routes around. -/
theorem identStart_facts (c : Char) (h : isIdentStart c = true) :
    isWS c = false ∧ c ≠ '-' ∧ c ≠ '\n' ∧ c ≠ '\r' := by
  refine ⟨?_, fun hc => ?_, fun hc => ?_, fun hc => ?_⟩
  · cases hw : isWS c with
    | false => rfl
    | true =>
      exfalso
      simp only [isWS, Bool.or_eq_true, beq_iff_eq] at hw
      rcases hw with ((((rfl | rfl) | rfl) | rfl) | rfl) | rfl <;> exact absurd h (by decide)
  · subst hc; exact absurd h (by decide)
  · subst hc; exact absurd h (by decide)
  · subst hc; exact absurd h (by decide)

/-- An identifier-rest character is neither a newline nor a carriage
return. -/
theorem identRest_facts (c : Char) (h : isIdentRest c = true) :
    c ≠ '\n' ∧ c ≠ '\r' := by
  refine ⟨fun hc => ?_, fun hc => ?_⟩
  · subst hc; exact absurd h (by decide)
  · subst hc; exact absurd h (by decide)

/-- `takeWhile` runs through a block of satisfying characters and stops at
a failing one. -/
theorem takeWhile_append_stop (p : Char → Bool) :
    ∀ (l : Str) (c : Char) (r : Str), (∀ x ∈ l, p x = true) → p c = false →
      (l ++ c :: r).takeWhile p = l := by
  intro l
  induction l with
  | nil =>
    intro c r _ hc
    simp [List.takeWhile_cons, hc]
  | cons a l' ih =>
    intro c r hl hc
    have ha := hl a (List.mem_cons_self a l')
    simp only [List.cons_append, List.takeWhile_cons, ha]
    simp [ih c r (fun x hx => hl x (List.mem_cons_of_mem a hx)) hc]

/-- A string whose head is not whitespace is `dropWhile`-stable. -/
theorem dropWhile_cons_not (p : Char → Bool) (c : Char) (r : Str) (h : p c = false) :
    (c :: r).dropWhile p = c :: r := by
  simp [List.dropWhile_cons, h]

/-- A trim-stable string is `dropWhile isWS`-stable. -/
theorem dropWhile_eq_self_of_trim (t : Str) (h : trimStr t = t) :
    t.dropWhile isWS = t := by
  have h1 : (trimStr t).length ≤ (t.dropWhile isWS).length := by
    unfold trimStr
    calc ((t.dropWhile isWS).reverse.dropWhile isWS).reverse.length
        = ((t.dropWhile isWS).reverse.dropWhile isWS).length := List.length_reverse _
      _ ≤ (t.dropWhile isWS).reverse.length := (List.dropWhile_sublist _).length_le
      _ = (t.dropWhile isWS).length := List.length_reverse _
  rw [h] at h1
  have h2 := congrArg List.length (List.takeWhile_append_dropWhile (p := isWS) (l := t))
  rw [List.length_append] at h2
  have h3 : (t.takeWhile isWS).length = 0 := by omega
  have h4 : t.takeWhile isWS = [] := List.eq_nil_of_length_eq_zero h3
  conv_rhs => rw [← List.takeWhile_append_dropWhile (p := isWS) (l := t)]
  rw [h4, List.nil_append]

/-- If the trim of a string is empty, every character is whitespace. -/
theorem trimStr_eq_nil_all (s : Str) (h : trimStr s = []) :
    ∀ c ∈ s, isWS c = true := by
  unfold trimStr at h
  have h1 : (s.dropWhile isWS).reverse.dropWhile isWS = [] := by
    have := congrArg List.reverse h
    simpa using this
  have h2 : ∀ c ∈ (s.dropWhile isWS).reverse, isWS c = true :=
    List.dropWhile_eq_nil_iff.mp h1
  have h3 : ∀ c ∈ s.dropWhile isWS, isWS c = true := by
    intro c hc
    exact h2 c (List.mem_reverse.mpr hc)
  intro c hc
  rw [← List.takeWhile_append_dropWhile (p := isWS) (l := s)] at hc
  rcases List.mem_append.mp hc with hc | hc
  · exact List.mem_takeWhile_imp hc
  · exact h3 c hc

/-- The trim of a string with a non-whitespace head is nonempty. -/
theorem trimStr_cons_ne (c : Char) (r : Str) (h : isWS c = false) :
    trimStr (c :: r) ≠ [] := by
  intro hc
  have := trimStr_eq_nil_all (c :: r) hc c (List.mem_cons_self c r)
  rw [h] at this
  exact Bool.noConfusion this

/-- The key regex on a serialized entry line: the identifier key is
captured, the colon consumed, and group 2 is the rest with its leading
whitespace stripped. -/
theorem keyMatch_entry (k r2 : Str) (hk : isIdentKey k = true)
    (hr : ∀ c ∈ r2.dropWhile isWS, c ≠ '\r') :
    keyMatch (k ++ ':' :: r2) = some (k, r2.dropWhile isWS) := by
  cases k with
  | nil => exact Bool.noConfusion hk
  | cons ck ktail =>
    simp only [isIdentKey, Bool.and_eq_true] at hk
    obtain ⟨hcs, hall⟩ := hk
    have htw : (ktail ++ ':' :: r2).takeWhile isIdentRest = ktail :=
      takeWhile_append_stop isIdentRest ktail ':' r2
        (fun x hx => List.all_eq_true.mp hall x hx) (by decide)
    have hdw : ((ktail ++ ':' :: r2).drop ktail.length) = ':' :: r2 :=
      List.drop_left ktail (':' :: r2)
    have hall2 : (r2.dropWhile isWS).all (fun ch => ch ≠ '\r') = true :=
      List.all_eq_true.mpr (fun c hc => decide_eq_true (hr c hc))
    simp only [List.cons_append]
    rw [keyMatch.eq_def]
    dsimp only
    rw [if_pos hcs, htw, hdw, dropWhile_cons_not isWS ':' r2 (by decide)]
    show (if (r2.dropWhile isWS).all (fun ch => ch ≠ '\r') = true
          then some (ck :: ktail, r2.dropWhile isWS) else none)
        = some (ck :: ktail, r2.dropWhile isWS)
    rw [if_pos hall2]

/-- A line opening with an identifier-start character is no array item. -/
theorem matchArrayItemPfx_ident (c : Char) (rest : Str) (hcs : isIdentStart c = true) :
    matchArrayItemPfx (c :: rest) = false := by
  obtain ⟨hws, hdash, -, -⟩ := identStart_facts c hcs
  unfold matchArrayItemPfx
  rw [dropWhile_cons_not isWS c rest hws]
  split
  · next heq => exact absurd (List.cons.inj heq).1 hdash
  · rfl

/-- Leading whitespace of a serialized item line. -/
theorem dropWhile_item (tok : Str) :
    ("  - ".data ++ tok).dropWhile isWS = '-' :: ' ' :: tok := rfl

/-- A serialized item line matches the array-item test. -/
theorem matchArrayItemPfx_item (tok : Str) :
    matchArrayItemPfx ("  - ".data ++ tok) = true := rfl

/-- The value of a serialized item line is the (trim-stable) token. -/
theorem arrayItemValue_item (tok : Str) (htr : trimStr tok = tok) :
    arrayItemValue ("  - ".data ++ tok) = tok := by
  unfold arrayItemValue
  rw [dropWhile_item]
  show trimStr ((' ' :: tok).dropWhile isWS) = tok
  rw [show (' ' :: tok).dropWhile isWS = tok.dropWhile isWS from rfl,
    dropWhile_eq_self_of_trim tok htr, htr]

/-- A serialized item line does not trim to the empty string. -/
theorem trimStr_item_ne (tok : Str) : trimStr ("  - ".data ++ tok) ≠ [] := by
  intro h
  exact absurd (trimStr_eq_nil_all _ h '-' (List.mem_append_left tok (by decide)))
    (by decide)

/-- A serialized scalar entry line moves the loop to: previous pending
array flushed, the key bound to the coerced token, no open array. -/
theorem parseYamlStep_scalar (st : PYState) (k tok : Str)
    (hk : isIdentKey k = true) (htne : tok ≠ []) (htr : trimStr tok = tok)
    (hnr : ∀ c ∈ tok, c ≠ '\r') :
    parseYamlStep st (k ++ ':' :: ' ' :: tok) =
      ⟨recSet (parseYamlFinish st) k (parseYamlValue tok), k, none⟩ := by
  have hg2 : (' ' :: tok).dropWhile isWS = tok := by
    rw [show (' ' :: tok).dropWhile isWS = tok.dropWhile isWS from rfl]
    exact dropWhile_eq_self_of_trim tok htr
  have hkm : keyMatch (k ++ ':' :: ' ' :: tok) = some (k, tok) := by
    have h0 := keyMatch_entry k (' ' :: tok) hk (by rw [hg2]; exact hnr)
    rw [hg2] at h0
    exact h0
  obtain ⟨ck, ktail, rfl⟩ : ∃ ck ktail, k = ck :: ktail := by
    cases k with
    | nil => exact Bool.noConfusion hk
    | cons ck ktail => exact ⟨ck, ktail, rfl⟩
  have hcs : isIdentStart ck = true := by
    simp only [isIdentKey, Bool.and_eq_true] at hk
    exact hk.1
  have hlt : trimStr ((ck :: ktail) ++ ':' :: ' ' :: tok) ≠ [] := by
    rw [List.cons_append]
    exact trimStr_cons_ne ck _ (identStart_facts ck hcs).1
  have hpfx : matchArrayItemPfx (ck :: (ktail ++ ':' :: ' ' :: tok)) = false :=
    matchArrayItemPfx_ident ck _ hcs
  unfold parseYamlStep
  rw [if_neg hlt, if_neg (by simp [hpfx]), hkm]
  dsimp only
  rw [htr, if_neg htne]
  obtain ⟨R, K, A⟩ := st
  cases A with
  | none => rfl
  | some xs =>
    by_cases hK : K = []
    · subst hK
      simp [parseYamlFinish]
    · simp [parseYamlFinish, hK]

/-- A serialized array-open line (`key:`) flushes the pending array and
opens a fresh one under the key. -/
theorem parseYamlStep_arrOpen (st : PYState) (k : Str) (hk : isIdentKey k = true) :
    parseYamlStep st (k ++ [':']) =
      ⟨parseYamlFinish st, k, some []⟩ := by
  have hkm : keyMatch (k ++ ':' :: ([] : Str)) = some (k, []) := by
    have h0 := keyMatch_entry k [] hk (by intro c hc; simp at hc)
    simpa using h0
  obtain ⟨ck, ktail, rfl⟩ : ∃ ck ktail, k = ck :: ktail := by
    cases k with
    | nil => exact Bool.noConfusion hk
    | cons ck ktail => exact ⟨ck, ktail, rfl⟩
  have hcs : isIdentStart ck = true := by
    simp only [isIdentKey, Bool.and_eq_true] at hk
    exact hk.1
  have hlt : trimStr ((ck :: ktail) ++ [':']) ≠ [] := by
    rw [List.cons_append]
    exact trimStr_cons_ne ck _ (identStart_facts ck hcs).1
  have hpfx : matchArrayItemPfx (ck :: (ktail ++ [':'])) = false :=
    matchArrayItemPfx_ident ck _ hcs
  unfold parseYamlStep
  rw [if_neg hlt, if_neg (by simp [hpfx]), hkm]
  dsimp only
  rw [show trimStr ([] : Str) = [] from rfl, if_pos rfl]
  obtain ⟨R, K, A⟩ := st
  cases A with
  | none => rfl
  | some xs =>
    by_cases hK : K = []
    · subst hK
      simp [parseYamlFinish]
    · simp [parseYamlFinish, hK]

/-- A serialized item line appends its coerced token to the open array. -/
theorem parseYamlStep_item (R : List (Str × Yaml)) (K : Str) (acc : List Yaml)
    (tok : Str) (htr : trimStr tok = tok) :
    parseYamlStep ⟨R, K, some acc⟩ ("  - ".data ++ tok) =
      ⟨R, K, some (acc ++ [parseYamlValue tok])⟩ := by
  unfold parseYamlStep
  rw [if_neg (trimStr_item_ne tok), if_pos (matchArrayItemPfx_item tok)]
  dsimp only
  rw [arrayItemValue_item tok htr]

/-- A non-array value serializes to a single `key: value` line. -/
theorem stringifyYamlEntry_scalar (k : Str) (v : Yaml) (h : v.isArr = false) :
    stringifyYamlEntry k v = [k ++ ':' :: ' ' :: stringifyYamlValue v] := by
  cases v <;> first | rfl | exact Bool.noConfusion h

/-- Folding the serialized item lines of an array extends the open array
by the coerced items. -/
theorem fold_items :
    ∀ (ys : List Yaml) (R : List (Str × Yaml)) (K : Str) (acc : List Yaml),
      (∀ y ∈ ys, goodScalar y = true) →
      (ys.map (fun item => "  - ".data ++ stringifyYamlValue item)).foldl parseYamlStep
          ⟨R, K, some acc⟩
        = ⟨R, K, some (acc ++ ys)⟩ := by
  intro ys
  induction ys with
  | nil =>
    intro R K acc _
    simp
  | cons y ys' ih =>
    intro R K acc hg
    have hgy := hg y (List.mem_cons_self y ys')
    simp only [goodScalar, Bool.and_eq_true] at hgy
    obtain ⟨⟨⟨⟨-, -⟩, h3⟩, -⟩, h5⟩ := hgy
    have htr : trimStr (stringifyYamlValue y) = stringifyYamlValue y := eq_of_beq h3
    have hval : parseYamlValue (stringifyYamlValue y) = y := yamlScalarBeq_eq _ _ h5
    simp only [List.map_cons, List.foldl_cons]
    rw [parseYamlStep_item R K acc (stringifyYamlValue y) htr, hval]
    rw [ih R K (acc ++ [y]) (fun z hz => hg z (List.mem_cons_of_mem y hz))]
    simp

/-- One serialized scalar entry, folded through the loop, updates the
flushed result at its key. -/
theorem fold_entry_scalar (st : PYState) (k : Str) (v : Yaml)
    (hk : isIdentKey k = true) (harr : v.isArr = false) (hv : goodScalar v = true) :
    parseYamlFinish ((stringifyYamlEntry k v).foldl parseYamlStep st)
      = recSet (parseYamlFinish st) k v := by
  have h' := hv
  simp only [goodScalar, Bool.and_eq_true] at h'
  obtain ⟨⟨⟨⟨-, h2⟩, h3⟩, h4⟩, h5⟩ := h'
  have htne : stringifyYamlValue v ≠ [] := by
    intro h0
    rw [h0] at h2
    exact Bool.noConfusion h2
  have htr : trimStr (stringifyYamlValue v) = stringifyYamlValue v := eq_of_beq h3
  have hnr : ∀ c ∈ stringifyYamlValue v, c ≠ '\r' := by
    intro c hc h0
    have hcc := List.all_eq_true.mp h4 c hc
    simp only [Bool.and_eq_true] at hcc
    rw [h0] at hcc
    exact Bool.noConfusion hcc.2
  have hval : parseYamlValue (stringifyYamlValue v) = v := yamlScalarBeq_eq _ _ h5
  rw [stringifyYamlEntry_scalar k v harr]
  simp only [List.foldl_cons, List.foldl_nil]
  rw [parseYamlStep_scalar st k (stringifyYamlValue v) hk htne htr hnr]
  simp only [parseYamlFinish]
  rw [hval]

/-- One serialized entry (scalar or array), folded through the loop and
flushed, updates the flushed result at its key. -/
theorem fold_entry (st : PYState) (k : Str) (v : Yaml)
    (hk : isIdentKey k = true) (hv : goodValue v = true) :
    parseYamlFinish ((stringifyYamlEntry k v).foldl parseYamlStep st)
      = recSet (parseYamlFinish st) k v := by
  have hkne : k ≠ [] := by
    cases k with
    | nil => exact Bool.noConfusion hk
    | cons a b => simp
  cases v with
  | arr xs =>
    cases xs with
    | nil =>
      rw [show stringifyYamlEntry k (.arr []) = [k ++ ':' :: ' ' :: "[]".data] from rfl]
      simp only [List.foldl_cons, List.foldl_nil]
      rw [parseYamlStep_scalar st k "[]".data hk (by decide) (by decide) (by decide)]
      simp only [parseYamlFinish]
      rw [show parseYamlValue "[]".data = Yaml.arr [] from rfl]
    | cons y ys =>
      have hall : ∀ z ∈ (y :: ys), goodScalar z = true := by
        intro z hz
        exact List.all_eq_true.mp hv z hz
      rw [show stringifyYamlEntry k (.arr (y :: ys)) = (k ++ [':']) ::
          (y :: ys).map (fun item => "  - ".data ++ stringifyYamlValue item) from rfl]
      simp only [List.foldl_cons]
      rw [parseYamlStep_arrOpen st k hk]
      rw [fold_items (y :: ys) (parseYamlFinish st) k [] hall]
      simp only [List.nil_append, parseYamlFinish]
      rw [if_pos hkne]
  | str s => exact fold_entry_scalar st k (.str s) hk rfl hv
  | int n => exact fold_entry_scalar st k (.int n) hk rfl hv
  | float t => exact fold_entry_scalar st k (.float t) hk rfl hv
  | bool b => exact fold_entry_scalar st k (.bool b) hk rfl hv
  | null => exact fold_entry_scalar st k .null hk rfl hv

/-- Folding all serialized entries and flushing is the `recSet`-fold of
the record over the flushed start state. -/
theorem parseYaml_entries :
    ∀ (fm : List (Str × Yaml)) (st : PYState),
      (∀ p ∈ fm, isIdentKey p.1 = true ∧ goodValue p.2 = true) →
      parseYamlFinish ((fm.flatMap (fun p => stringifyYamlEntry p.1 p.2)).foldl
          parseYamlStep st)
        = fm.foldl (fun r p => recSet r p.1 p.2) (parseYamlFinish st) := by
  intro fm
  induction fm with
  | nil => intro st _; rfl
  | cons p fm' ih =>
    obtain ⟨k, v⟩ := p
    intro st h
    have hp := h (k, v) (List.mem_cons_self _ _)
    simp only [List.flatMap_cons, List.foldl_append, List.foldl_cons]
    rw [ih ((stringifyYamlEntry k v).foldl parseYamlStep st)
      (fun q hq => h q (List.mem_cons_of_mem (k, v) hq))]
    rw [fold_entry st k v hp.1 hp.2]

/-- Under distinct keys, the `recSet`-fold appends the record to any
accumulator whose keys are disjoint from it. -/
theorem foldl_recSet_distinct :
    ∀ (fm : List (Str × Yaml)) (acc : List (Str × Yaml)),
      distinctKeysB fm = true →
      (∀ q ∈ fm, acc.any (fun p => p.1 == q.1) = false) →
      fm.foldl (fun r p => recSet r p.1 p.2) acc = acc ++ fm := by
  intro fm
  induction fm with
  | nil => intro acc _ _; simp
  | cons p fm' ih =>
    obtain ⟨k, v⟩ := p
    intro acc hd hdisj
    have hpair := by simpa only [distinctKeysB, Bool.and_eq_true] using hd
    obtain ⟨h1, hd'⟩ := hpair
    have hanyf : fm'.any (fun q => q.1 == k) = false := by
      cases hq : fm'.any (fun q => q.1 == k) with
      | false => rfl
      | true => rw [hq] at h1; exact Bool.noConfusion h1
    have hnot : acc.any (fun q => q.1 == k) = false := hdisj (k, v) (List.mem_cons_self _ _)
    simp only [List.foldl_cons]
    rw [show recSet acc k v = acc ++ [(k, v)] from by
      unfold recSet
      rw [hnot]
      simp]
    rw [ih (acc ++ [(k, v)]) hd' ?hdisj2]
    case hdisj2 =>
      intro q hq
      rw [List.any_append]
      have hqk : (k == q.1) = false := by
        cases hqk0 : (q.1 == k) with
        | false =>
          cases hkq : (k == q.1) with
          | false => rfl
          | true =>
            exfalso
            rw [show q.1 = k from (eq_of_beq hkq).symm] at hqk0
            simp at hqk0
        | true =>
          exfalso
          have : fm'.any (fun r => r.1 == k) = true :=
            List.any_eq_true.mpr ⟨q, hq, hqk0⟩
          rw [this] at hanyf
          exact Bool.noConfusion hanyf
      rw [hdisj q (List.mem_cons_of_mem (k, v) hq)]
      simp [hqk]
    simp

/-- A line free of newlines and carriage returns splits into itself. -/
theorem splitLinesCRLF_noNL (l : Str) (h : ∀ c ∈ l, c ≠ '\n' ∧ c ≠ '\r') :
    splitLinesCRLF l = [l] := by
  induction l with
  | nil => rfl
  | cons c rest ih =>
    have hc := h c (List.mem_cons_self c rest)
    rw [splitLinesCRLF.eq_def]
    split
    · next heq => exact (List.cons_ne_nil c rest heq).elim
    · next heq => exact absurd (List.cons.inj heq).1 hc.2
    · next heq => exact absurd (List.cons.inj heq).1 hc.1
    · next heq =>
      obtain ⟨rfl, rfl⟩ := List.cons.inj heq
      rw [ih (fun x hx => h x (List.mem_cons_of_mem c hx))]

/-- Splitting after a clean line and a newline peels the line off. -/
theorem splitLinesCRLF_append (l : Str) (h : ∀ c ∈ l, c ≠ '\n' ∧ c ≠ '\r') (s : Str) :
    splitLinesCRLF (l ++ '\n' :: s) = l :: splitLinesCRLF s := by
  induction l with
  | nil => rfl
  | cons c rest ih =>
    have hc := h c (List.mem_cons_self c rest)
    rw [List.cons_append, splitLinesCRLF.eq_def]
    split
    · next heq => exact (List.cons_ne_nil c _ heq).elim
    · next heq => exact absurd (List.cons.inj heq).1 hc.2
    · next heq => exact absurd (List.cons.inj heq).1 hc.1
    · next heq =>
      obtain ⟨rfl, rfl⟩ := List.cons.inj heq
      rw [ih (fun x hx => h x (List.mem_cons_of_mem c hx))]

/-- Joining clean lines and splitting again is the identity. -/
theorem splitLinesCRLF_joinNL :
    ∀ (ls : List Str), ls ≠ [] → (∀ l ∈ ls, ∀ c ∈ l, c ≠ '\n' ∧ c ≠ '\r') →
      splitLinesCRLF (joinNL ls) = ls := by
  intro ls
  induction ls with
  | nil => intro h _; exact absurd rfl h
  | cons l ls' ih =>
    intro _ h
    cases ls' with
    | nil => exact splitLinesCRLF_noNL l (h l (List.mem_cons_self l []))
    | cons l2 ls'' =>
      rw [show joinNL (l :: l2 :: ls'') = l ++ '\n' :: joinNL (l2 :: ls'') from rfl]
      rw [splitLinesCRLF_append l (h l (List.mem_cons_self l _)) _]
      rw [ih (List.cons_ne_nil l2 ls'') (fun x hx => h x (List.mem_cons_of_mem l hx))]

/-- No closing delimiter starts at an ordinary character. -/
theorem delimDashes_none_head (c : Char) (rest : Str) (h1 : c ≠ '\r') (h2 : c ≠ '\n') :
    delimDashes (c :: rest) = none := by
  rw [delimDashes.eq_def]
  split
  · next heq => exact absurd (List.cons.inj heq).1 h1
  · next heq => exact absurd (List.cons.inj heq).1 h2
  · rfl

/-- No closing delimiter starts at a newline not followed by a dash. -/
theorem delimDashes_nl_nodash (rest : Str) (h : rest.head? ≠ some '-') :
    delimDashes ('\n' :: rest) = none := by
  rw [delimDashes.eq_def]
  split
  · next heq => exact absurd (List.cons.inj heq).1 (by decide)
  · next heq =>
    obtain ⟨-, h2⟩ := List.cons.inj heq
    exact absurd (by rw [h2]; rfl) h
  · rfl

/-- `delimConsume` fails where `delimDashes` fails. -/
theorem delimConsume_none (s : Str) (h : delimDashes s = none) : delimConsume s = none := by
  unfold delimConsume
  rw [h]

/-- The closing-delimiter scan passes over characters that are neither
newlines nor carriage returns. -/
theorem findClose_skip_chars :
    ∀ (l t : Str) (g d r : Str), (∀ c ∈ l, c ≠ '\n' ∧ c ≠ '\r') →
      findClose t = some (g, d, r) → findClose (l ++ t) = some (l ++ g, d, r) := by
  intro l
  induction l with
  | nil => intro t g d r _ h; simpa using h
  | cons c l' ih =>
    intro t g d r hl hfc
    have hc := hl c (List.mem_cons_self c l')
    rw [List.cons_append, findClose.eq_def]
    dsimp only
    rw [delimConsume_none _ (delimDashes_none_head c _ hc.2 hc.1)]
    dsimp only
    rw [ih t g d r (fun x hx => hl x (List.mem_cons_of_mem c hx)) hfc]
    rfl

/-- The head of the join of a list starting with a nonempty line is that
line's head. -/
theorem joinNL_head (ls'' : List Str) (a : Char) (l2' : Str) :
    ∃ u, joinNL ((a :: l2') :: ls'') = a :: u := by
  cases ls'' with
  | nil => exact ⟨l2', rfl⟩
  | cons x xs => exact ⟨l2' ++ '\n' :: joinNL (x :: xs), rfl⟩

/-- The closing-delimiter scan runs through joined clean lines (nonempty,
free of newlines and carriage returns, not starting with a dash) and finds
the delimiter right after them. -/
theorem findClose_lines :
    ∀ (ls : List Str) (s' d r : Str),
      (∀ l ∈ ls, l ≠ [] ∧ (∀ c ∈ l, c ≠ '\n' ∧ c ≠ '\r') ∧ l.head? ≠ some '-') →
      delimConsume ('\n' :: s') = some (d, r) →
      findClose (joinNL ls ++ '\n' :: s') = some (joinNL ls, d, r) := by
  intro ls
  induction ls with
  | nil =>
    intro s' d r _ hdc
    rw [show joinNL [] = ([] : Str) from rfl, List.nil_append, findClose.eq_def]
    dsimp only
    rw [hdc]
  | cons l ls' ih =>
    intro s' d r h hdc
    have hl := h l (List.mem_cons_self l ls')
    cases ls' with
    | nil =>
      rw [show joinNL [l] = l from rfl]
      have h0 : findClose ('\n' :: s') = some ([], d, r) := by
        rw [findClose.eq_def]
        dsimp only
        rw [hdc]
      have h1 := findClose_skip_chars l ('\n' :: s') [] d r hl.2.1 h0
      simpa using h1
    | cons l2 ls'' =>
      rw [show joinNL (l :: l2 :: ls'') = l ++ '\n' :: joinNL (l2 :: ls'') from rfl]
      have hl2 := h l2 (List.mem_cons_of_mem l (List.mem_cons_self l2 ls''))
      have hhead : (joinNL (l2 :: ls'') ++ '\n' :: s').head? ≠ some '-' := by
        cases hl2e : l2 with
        | nil => exact absurd hl2e hl2.1
        | cons a l2' =>
          obtain ⟨u, hu⟩ := joinNL_head ls'' a l2'
          rw [hl2e] at hl2
          rw [hu, List.cons_append]
          intro hcon
          simp only [List.head?_cons, Option.some.injEq] at hcon
          exact hl2.2.2 (by rw [hcon]; rfl)
      have hdcn : delimConsume ('\n' :: (joinNL (l2 :: ls'') ++ '\n' :: s')) = none :=
        delimConsume_none _ (delimDashes_nl_nodash _ hhead)
      have hrec := ih s' d r (fun x hx => h x (List.mem_cons_of_mem l hx)) hdc
      have hstep : findClose ('\n' :: (joinNL (l2 :: ls'') ++ '\n' :: s'))
          = some ('\n' :: joinNL (l2 :: ls''), d, r) := by
        rw [findClose.eq_def]
        dsimp only
        rw [hdcn]
        dsimp only
        rw [hrec]
      have h2 := findClose_skip_chars l ('\n' :: (joinNL (l2 :: ls'') ++ '\n' :: s'))
        ('\n' :: joinNL (l2 :: ls'')) d r hl.2.1 hstep
      simpa using h2

/-- Characters of an identifier key are neither newlines nor carriage
returns. -/
theorem key_chars (k : Str) (hk : isIdentKey k = true) :
    ∀ c ∈ k, c ≠ '\n' ∧ c ≠ '\r' := by
  cases k with
  | nil => exact Bool.noConfusion hk
  | cons ck ktail =>
    simp only [isIdentKey, Bool.and_eq_true] at hk
    intro c hc
    rcases List.mem_cons.mp hc with rfl | hmem
    · exact ⟨(identStart_facts c hk.1).2.2.1, (identStart_facts c hk.1).2.2.2⟩
    · exact identRest_facts c (List.all_eq_true.mp hk.2 c hmem)

/-- The token of a good scalar is free of newlines and carriage
returns. -/
theorem goodScalar_chars (v : Yaml) (hv : goodScalar v = true) :
    ∀ c ∈ stringifyYamlValue v, c ≠ '\n' ∧ c ≠ '\r' := by
  have h' := hv
  simp only [goodScalar, Bool.and_eq_true] at h'
  obtain ⟨⟨⟨⟨-, -⟩, -⟩, h4⟩, -⟩ := h'
  intro c hc
  have hcc := List.all_eq_true.mp h4 c hc
  simp only [Bool.and_eq_true] at hcc
  constructor
  · intro h0; rw [h0] at hcc; exact Bool.noConfusion hcc.1
  · intro h0; rw [h0] at hcc; exact Bool.noConfusion hcc.2

/-- The facts the block scan needs about a line opening with a key. -/
theorem keyline_facts (ck : Char) (ktail suffix : Str)
    (hcs : isIdentStart ck = true)
    (hkt : ∀ c ∈ ktail, c ≠ '\n' ∧ c ≠ '\r')
    (hsuf : ∀ c ∈ suffix, c ≠ '\n' ∧ c ≠ '\r') :
    ((ck :: ktail) ++ suffix ≠ []) ∧
    (∀ c ∈ (ck :: ktail) ++ suffix, c ≠ '\n' ∧ c ≠ '\r') ∧
    ((ck :: ktail) ++ suffix).head? ≠ some '-' := by
  obtain ⟨-, hdash, hn, hr⟩ := identStart_facts ck hcs
  refine ⟨by simp, ?_, ?_⟩
  · intro c hc
    rcases List.mem_append.mp hc with hc | hc
    · rcases List.mem_cons.mp hc with rfl | hc
      · exact ⟨hn, hr⟩
      · exact hkt c hc
    · exact hsuf c hc
  · rw [List.cons_append]
    intro hcon
    simp only [List.head?_cons, Option.some.injEq] at hcon
    exact hdash hcon

/-- The facts the block scan needs about a serialized item line. -/
theorem itemline_facts (tok : Str) (htok : ∀ c ∈ tok, c ≠ '\n' ∧ c ≠ '\r') :
    ("  - ".data ++ tok ≠ []) ∧
    (∀ c ∈ "  - ".data ++ tok, c ≠ '\n' ∧ c ≠ '\r') ∧
    ("  - ".data ++ tok).head? ≠ some '-' := by
  rw [show "  - ".data ++ tok = ' ' :: ' ' :: '-' :: ' ' :: tok from rfl]
  refine ⟨by simp, ?_, by simp⟩
  intro c hc
  rcases List.mem_cons.mp hc with rfl | hc
  · exact ⟨by decide, by decide⟩
  rcases List.mem_cons.mp hc with rfl | hc
  · exact ⟨by decide, by decide⟩
  rcases List.mem_cons.mp hc with rfl | hc
  · exact ⟨by decide, by decide⟩
  rcases List.mem_cons.mp hc with rfl | hc
  · exact ⟨by decide, by decide⟩
  exact htok c hc

/-- Every line a good entry serializes to is nonempty, free of newlines
and carriage returns, and does not start with a dash. -/
theorem entryLines_facts (k : Str) (v : Yaml) (hk : isIdentKey k = true)
    (hv : goodValue v = true) :
    ∀ l ∈ stringifyYamlEntry k v,
      l ≠ [] ∧ (∀ c ∈ l, c ≠ '\n' ∧ c ≠ '\r') ∧ l.head? ≠ some '-' := by
  obtain ⟨ck, ktail, rfl⟩ : ∃ ck ktail, k = ck :: ktail := by
    cases k with
    | nil => exact Bool.noConfusion hk
    | cons ck ktail => exact ⟨ck, ktail, rfl⟩
  have hcs : isIdentStart ck = true := by
    simp only [isIdentKey, Bool.and_eq_true] at hk
    exact hk.1
  have hkt : ∀ c ∈ ktail, c ≠ '\n' ∧ c ≠ '\r' :=
    fun c hc => key_chars (ck :: ktail) hk c (List.mem_cons_of_mem ck hc)
  intro l hl
  cases v with
  | arr xs =>
    cases xs with
    | nil =>
      rw [show stringifyYamlEntry (ck :: ktail) (.arr [])
          = [(ck :: ktail) ++ ": []".data] from rfl] at hl
      rcases List.mem_cons.mp hl with rfl | hl
      · exact keyline_facts ck ktail ": []".data hcs hkt (by decide)
      · simp at hl
    | cons y ys =>
      rw [show stringifyYamlEntry (ck :: ktail) (.arr (y :: ys))
          = ((ck :: ktail) ++ [':']) ::
            (y :: ys).map (fun item => "  - ".data ++ stringifyYamlValue item) from rfl] at hl
      rcases List.mem_cons.mp hl with rfl | hl
      · exact keyline_facts ck ktail [':'] hcs hkt (by decide)
      · obtain ⟨y', hy', rfl⟩ := List.mem_map.mp hl
        exact itemline_facts (stringifyYamlValue y')
          (goodScalar_chars y' (List.all_eq_true.mp hv y' hy'))
  | str s =>
    rw [stringifyYamlEntry_scalar (ck :: ktail) (.str s) rfl] at hl
    rcases List.mem_cons.mp hl with rfl | hl
    · exact keyline_facts ck ktail (':' :: ' ' :: stringifyYamlValue (.str s)) hcs hkt
        (by
          intro c hc
          rcases List.mem_cons.mp hc with rfl | hc
          · exact ⟨by decide, by decide⟩
          rcases List.mem_cons.mp hc with rfl | hc
          · exact ⟨by decide, by decide⟩
          exact goodScalar_chars _ hv c hc)
    · simp at hl
  | int n =>
    rw [stringifyYamlEntry_scalar (ck :: ktail) (.int n) rfl] at hl
    rcases List.mem_cons.mp hl with rfl | hl
    · exact keyline_facts ck ktail (':' :: ' ' :: stringifyYamlValue (.int n)) hcs hkt
        (by
          intro c hc
          rcases List.mem_cons.mp hc with rfl | hc
          · exact ⟨by decide, by decide⟩
          rcases List.mem_cons.mp hc with rfl | hc
          · exact ⟨by decide, by decide⟩
          exact goodScalar_chars _ hv c hc)
    · simp at hl
  | float t =>
    rw [stringifyYamlEntry_scalar (ck :: ktail) (.float t) rfl] at hl
    rcases List.mem_cons.mp hl with rfl | hl
    · exact keyline_facts ck ktail (':' :: ' ' :: stringifyYamlValue (.float t)) hcs hkt
        (by
          intro c hc
          rcases List.mem_cons.mp hc with rfl | hc
          · exact ⟨by decide, by decide⟩
          rcases List.mem_cons.mp hc with rfl | hc
          · exact ⟨by decide, by decide⟩
          exact goodScalar_chars _ hv c hc)
    · simp at hl
  | bool b =>
    rw [stringifyYamlEntry_scalar (ck :: ktail) (.bool b) rfl] at hl
    rcases List.mem_cons.mp hl with rfl | hl
    · exact keyline_facts ck ktail (':' :: ' ' :: stringifyYamlValue (.bool b)) hcs hkt
        (by
          intro c hc
          rcases List.mem_cons.mp hc with rfl | hc
          · exact ⟨by decide, by decide⟩
          rcases List.mem_cons.mp hc with rfl | hc
          · exact ⟨by decide, by decide⟩
          exact goodScalar_chars _ hv c hc)
    · simp at hl
  | null =>
    rw [stringifyYamlEntry_scalar (ck :: ktail) .null rfl] at hl
    rcases List.mem_cons.mp hl with rfl | hl
    · exact keyline_facts ck ktail (':' :: ' ' :: stringifyYamlValue .null) hcs hkt
        (by
          intro c hc
          rcases List.mem_cons.mp hc with rfl | hc
          · exact ⟨by decide, by decide⟩
          rcases List.mem_cons.mp hc with rfl | hc
          · exact ⟨by decide, by decide⟩
          exact goodScalar_chars _ hv c hc)
    · simp at hl

/-- The lines of a good entry never vanish. -/
theorem stringifyYamlEntry_ne (k : Str) (v : Yaml) : stringifyYamlEntry k v ≠ [] := by
  cases v with
  | arr xs => cases xs <;> exact List.cons_ne_nil _ _
  | str s => exact List.cons_ne_nil _ _
  | int n => exact List.cons_ne_nil _ _
  | float t => exact List.cons_ne_nil _ _
  | bool b => exact List.cons_ne_nil _ _
  | null => exact List.cons_ne_nil _ _

/-- C1.  Amended round trip: for a nonempty frontmatter whose keys are
distinct identifiers and whose values are round-trippable (scalars, or
flat arrays of scalars, each serializing to a nonempty, trim-stable token
without newlines or carriage returns that `parseYamlValue` coerces back
to the same value), `stringifyFrontmatter` followed by `parseFrontmatter`
recovers the record exactly, returns any appended body unchanged, and
reports the whole serialized block as `raw`. -/
theorem frontmatter_roundtrip (fm : List (Str × Yaml)) (body : Str)
    (h : goodFM fm = true) :
    parseFrontmatter (stringifyFrontmatter fm ++ body) =
      ⟨fm, body, stringifyFrontmatter fm⟩ := by
  have h' := h
  simp only [goodFM, Bool.and_eq_true] at h'
  obtain ⟨⟨hne, hall⟩, hdist⟩ := h'
  have hfm : ∀ p ∈ fm, isIdentKey p.1 = true ∧ goodValue p.2 = true := by
    intro p hp
    have h0 := List.all_eq_true.mp hall p hp
    simpa only [Bool.and_eq_true] using h0
  have hfmne : fm ≠ [] := by
    intro h0
    rw [h0] at hne
    exact Bool.noConfusion hne
  have hlinesfacts : ∀ l ∈ fm.flatMap (fun p => stringifyYamlEntry p.1 p.2),
      l ≠ [] ∧ (∀ c ∈ l, c ≠ '\n' ∧ c ≠ '\r') ∧ l.head? ≠ some '-' := by
    intro l hl
    obtain ⟨p, hp, hlp⟩ := List.mem_flatMap.mp hl
    exact entryLines_facts p.1 p.2 (hfm p hp).1 (hfm p hp).2 l hlp
  have hlinesne : fm.flatMap (fun p => stringifyYamlEntry p.1 p.2) ≠ [] := by
    cases hfm0 : fm with
    | nil => exact absurd hfm0 hfmne
    | cons p fm' =>
      simp only [List.flatMap_cons, ne_eq, List.append_eq_nil]
      intro hc
      exact stringifyYamlEntry_ne p.1 p.2 hc.1
  have hraw : stringifyFrontmatter fm
      = ['-', '-', '-', '\n'] ++ (joinNL (fm.flatMap (fun p => stringifyYamlEntry p.1 p.2))
          ++ ['\n', '-', '-', '-', '\n']) := by
    unfold stringifyFrontmatter stringifyYaml
    rw [if_neg (by simpa using hfmne)]
    show ((['-', '-', '-'] : Str) ++ '\n' ::
        (joinNL (fm.flatMap (fun p => stringifyYamlEntry p.1 p.2)) ++ ['\n']))
        ++ ['-', '-', '-'] ++ ['\n'] = _
    simp [List.append_assoc]
  have hcontent : stringifyFrontmatter fm ++ body
      = '-' :: '-' :: '-' :: '\n' ::
        (joinNL (fm.flatMap (fun p => stringifyYamlEntry p.1 p.2))
          ++ '\n' :: '-' :: '-' :: '-' :: '\n' :: body) := by
    rw [hraw]
    simp [List.append_assoc]
  have hfl : fmLead (stringifyFrontmatter fm ++ body)
      = some (['-', '-', '-', '\n'],
          joinNL (fm.flatMap (fun p => stringifyYamlEntry p.1 p.2))
            ++ '\n' :: '-' :: '-' :: '-' :: '\n' :: body) := by
    rw [hcontent]
    rfl
  have hfc : findClose (joinNL (fm.flatMap (fun p => stringifyYamlEntry p.1 p.2))
        ++ '\n' :: '-' :: '-' :: '-' :: '\n' :: body)
      = some (joinNL (fm.flatMap (fun p => stringifyYamlEntry p.1 p.2)),
          ['\n', '-', '-', '-', '\n'], body) := by
    exact findClose_lines (fm.flatMap (fun p => stringifyYamlEntry p.1 p.2))
      ('-' :: '-' :: '-' :: '\n' :: body) ['\n', '-', '-', '-', '\n'] body
      hlinesfacts rfl
  have hmatch : frontmatterMatch (stringifyFrontmatter fm ++ body)
      = some ⟨stringifyFrontmatter fm,
          joinNL (fm.flatMap (fun p => stringifyYamlEntry p.1 p.2)), body⟩ := by
    unfold frontmatterMatch
    rw [hfl]
    dsimp only
    rw [hfc]
    dsimp only
    rw [hraw, List.append_assoc]
  have hsplit : splitLinesCRLF (joinNL (fm.flatMap (fun p => stringifyYamlEntry p.1 p.2)))
      = fm.flatMap (fun p => stringifyYamlEntry p.1 p.2) :=
    splitLinesCRLF_joinNL _ hlinesne (fun l hl => (hlinesfacts l hl).2.1)
  have hpy : parseYaml (joinNL (fm.flatMap (fun p => stringifyYamlEntry p.1 p.2))) = fm := by
    unfold parseYaml
    rw [hsplit]
    rw [parseYaml_entries fm ⟨[], [], none⟩ hfm]
    rw [show parseYamlFinish (⟨[], [], none⟩ : PYState) = [] from rfl]
    rw [foldl_recSet_distinct fm [] hdist (fun q hq => rfl)]
    rw [List.nil_append]
  unfold parseFrontmatter
  rw [hmatch]
  dsimp only
  rw [hpy]

/-- Witness for C1: the amended round trip applied to a record with a
string, an array and an integer value. -/
theorem frontmatter_roundtrip_witness :
    goodFM [("title".data, Yaml.str "hello".data),
            ("tags".data, Yaml.arr [Yaml.str "a".data, Yaml.int 3]),
            ("count".data, Yaml.int 7)] = true ∧
    parseFrontmatter (stringifyFrontmatter
        [("title".data, Yaml.str "hello".data),
         ("tags".data, Yaml.arr [Yaml.str "a".data, Yaml.int 3]),
         ("count".data, Yaml.int 7)] ++ "Body".data) =
      ⟨[("title".data, Yaml.str "hello".data),
        ("tags".data, Yaml.arr [Yaml.str "a".data, Yaml.int 3]),
        ("count".data, Yaml.int 7)], "Body".data,
       stringifyFrontmatter
        [("title".data, Yaml.str "hello".data),
         ("tags".data, Yaml.arr [Yaml.str "a".data, Yaml.int 3]),
         ("count".data, Yaml.int 7)]⟩ :=
  ⟨by rfl,
   frontmatter_roundtrip
     [("title".data, Yaml.str "hello".data),
      ("tags".data, Yaml.arr [Yaml.str "a".data, Yaml.int 3]),
      ("count".data, Yaml.int 7)] "Body".data (by rfl)⟩
